import Mathlib

/-! Verification development for the surrogate time-series generators in
Chapter 08/graph_surrogate.py: the functions uniform_shuffle and
fourier_constrained_shuffle.

Modelling conventions.
A (T, N) numpy array (T samples, N nodes) is represented channel-major, as a
list of N channels, each a list of T samples, mirroring the per-channel loops
over xV.T in the source; real floating-point values are idealised as real
numbers.  The process-wide pseudorandom generator is modelled by explicit
oracle parameters: the permutation draws of uniform_shuffle are permutation
parameters, the white noise draw np.random.randn(n) * np.std(xV_, ddof=1)
of fourier_constrained_shuffle is a per-channel real stream wnoise, and the
scaled phase draw np.random.rand(n2-1) * 2 * np.pi is a per-channel real
stream phase (the first n2-1 values of a stream form one draw).  The discrete
Fourier transform primitive (an external collaborator per the code; np.fft),
together with np.abs, np.angle and complex exponentiation, is a parameter
bundle FourierPrims; the propositions IsNpFFT, IsNpIFFTRe, IsPolar and
RealPrims pin that bundle to the genuine transform over the complex numbers.
Fallible numpy operations (scalar indexing out of range, fft with zero
points) are embedded in the Except monad. -/

namespace Surrogate

/-- Failure outcomes of the embedded numpy operations.  The code itself only
ever produces indexOutOfBounds (a scalar index past the end of an array,
numpy IndexError) and invalidFFTLength (np.fft.fft called with 0 points,
numpy ValueError).  The constructors invalidInputShape and
insufficientSamples model the error taxonomy of the specification (section
7); the code never produces them, which is what the theorems below settle. -/
inductive NpError
  | indexOutOfBounds
  | invalidFFTLength
  | invalidInputShape
  | insufficientSamples
  deriving DecidableEq

/-- Numpy fancy indexing xs[idx] for a list of indices: the list of elements
of xs at the positions in idx, failing like numpy does when some index is out
of range. -/
def fancyIndex (xs : List α) (idx : List ℕ) : Except NpError (List α) :=
  idx.mapM fun i =>
    match xs[i]? with
    | some v => Except.ok v
    | none => Except.error NpError.indexOutOfBounds

/-- The index order used to model np.argsort: index i precedes index j when
the value at i is smaller, with ties broken by index (a stable argsort; numpy
leaves tie order unspecified, so any fixed tie-break is one admissible
refinement). -/
def argRel [LinearOrder K] [Inhabited K] (xs : List K) (i j : ℕ) : Prop :=
  xs.getD i default < xs.getD j default ∨
    (xs.getD i default = xs.getD j default ∧ i ≤ j)

/-- Strict version of the argsort index order. -/
def argRelLt [LinearOrder K] [Inhabited K] (xs : List K) (i j : ℕ) : Prop :=
  xs.getD i default < xs.getD j default ∨
    (xs.getD i default = xs.getD j default ∧ i < j)

instance argRel.decidable [LinearOrder K] [Inhabited K] (xs : List K) :
    DecidableRel (argRel xs) := fun i j =>
  inferInstanceAs (Decidable (xs.getD i default < xs.getD j default ∨
    (xs.getD i default = xs.getD j default ∧ i ≤ j)))

instance argRelLt.decidable [LinearOrder K] [Inhabited K] (xs : List K) :
    DecidableRel (argRelLt xs) := fun i j =>
  inferInstanceAs (Decidable (xs.getD i default < xs.getD j default ∨
    (xs.getD i default = xs.getD j default ∧ i < j)))

/-- Model of np.argsort(xs): the indices 0..len-1 reordered so that the
values of xs at them are nondecreasing. -/
def argsort [LinearOrder K] [Inhabited K] (xs : List K) : List ℕ :=
  (List.range xs.length).insertionSort (argRel xs)

/-- Model of np.sort(xs): the values of xs in nondecreasing order. -/
def sortL [LinearOrder K] (xs : List K) : List K :=
  xs.insertionSort (fun a b => a ≤ b)

/-- The stable rank of position i in xs: the number of positions whose
(value, index) pair lexicographically precedes that of i.  For duplicate-free
xs this is exactly the number of strictly smaller values. -/
def stableRank [LinearOrder K] [Inhabited K] (xs : List K) (i : ℕ) : ℕ :=
  (List.range xs.length).countP fun j => decide (argRelLt xs j i)

/-- Model of the numpy reversed slice xs[a:0:-1]: the elements at positions
a, a-1, ..., 1, with numpy's clamping of a start index past the end. -/
def revSliceToOne (xs : List K) (a : ℕ) : List K :=
  ((xs.drop 1).take a).reverse

/-- Crop or zero-pad xs to length m, as np.fft.fft and np.fft.ifft do with
their length argument. -/
def padTrunc [Zero K] (xs : List K) (m : ℕ) : List K :=
  xs.take m ++ List.replicate (m - xs.length) 0

/-- The bundle of analytic primitives consumed by fourier_constrained_shuffle
(specification section 6 lists them as external collaborators): a forward
transform at a given length, complex magnitude (np.abs), complex angle
(np.angle), the polar combination mag * exp(i * phase), and the real part of
the inverse transform at a given length. -/
structure FourierPrims (K C : Type) where
  fft : List K → ℕ → List C
  cabs : C → K
  carg : C → K
  polar : K → K → C
  ifftRe : List C → ℕ → List K

/-- The intermediate and final data of one iteration of the channel loop of
fourier_constrained_shuffle: the free-phase vector rfiV actually used, the
reconstructed phase spectrum nfiV, the phase-randomized series yftV, and the
surrogate column zV. -/
structure ChanRec (K : Type) where
  usedPhase : List K
  nfiV : List K
  yftV : List K
  zV : List K

/-- The conditional lazy initialisation of the free-phase vector rfiV in the
source: reuse the already-drawn vector when fixed_phase is set and a vector
exists, otherwise take a fresh draw. -/
def phaseChoice (fixed_phase : Bool) (rfiV0 : Option A) (draw : A) : A :=
  match fixed_phase, rfiV0 with
  | true, some r => r
  | _, _ => draw

/-- The body of one iteration of the channel loop of
fourier_constrained_shuffle (source lines 74-106), for the channel xV_ ;
aaftChannel below performs, in source order,

  n = len(xV_); T = np.argsort(xV_); oxV = np.sort(xV_); ixV = np.argsort(T)
  wV = np.random.randn(n) * np.std(xV_, ddof=1)   -- the parameter wV
  owV = np.sort(wV); yV = owV[ixV].copy()
  n2 = n//2; tmpV = np.fft.fft(yV, 2*n2)          -- fails if 2*n2 == 0
  magnV = np.abs(tmpV); fiV = np.angle(tmpV)
  rfiV = (reuse if fixed_phase and already drawn, else rand(n2-1)*2*pi)
  nfiV = np.append(np.append(np.append([0], rfiV), fiV[n2+1]), -rfiV[::-1])
  tmpV = np.append(magnV[:n2+1], magnV[n2-1:0:-1]) * np.exp(nfiV * 1j)
  yftV = np.real(np.fft.ifft(tmpV, n))
  T2 = np.argsort(yftV); iyftV = np.argsort(T2); zV = oxV[iyftV]

The scalar access fiV[n2+1] is embedded fallibly, exactly where numpy can
raise IndexError.  The part of the iteration from the spectrum tmpV and the
free-phase vector rfiV onward is the named sub-computation aaftTail. -/
def aaftTail [LinearOrder K] [Inhabited K] [Zero K] [Neg K]
    (P : FourierPrims K C) (oxV : List K) (n n2 : ℕ) (tmpV : List C)
    (rfiV : List K) : Except NpError (ChanRec K) := do
  let magnV := tmpV.map P.cabs
  let fiV := tmpV.map P.carg
  match fiV[n2 + 1]? with
  | none => throw NpError.indexOutOfBounds
  | some fi1 =>
    let nfiV := ((0 : K) :: rfiV) ++ ([fi1] ++ (rfiV.reverse.map fun a => -a))
    let magM := magnV.take (n2 + 1) ++ revSliceToOne magnV (n2 - 1)
    let tmp2 := List.zipWith P.polar magM nfiV
    let yftV := P.ifftRe tmp2 n
    let T2 := argsort yftV
    let iyftV := argsort T2
    let zV ← fancyIndex oxV iyftV
    pure ⟨rfiV, nfiV, yftV, zV⟩

/-- One iteration of the channel loop of fourier_constrained_shuffle; see the
doc comment above aaftTail. -/
def aaftChannel [LinearOrder K] [Inhabited K] [Zero K] [Neg K]
    (P : FourierPrims K C) (fixed_phase : Bool) (wV : List K)
    (rfiV0 : Option (List K)) (phaseStream : ℕ → K) (xV_ : List K) :
    Except NpError (ChanRec K) := do
  let n := xV_.length
  let Ti := argsort xV_
  let oxV := sortL xV_
  let ixV := argsort Ti
  let owV := sortL wV
  let yV ← fancyIndex owV ixV
  let n2 := n / 2
  if 2 * n2 = 0 then throw NpError.invalidFFTLength else
  let tmpV := P.fft yV (2 * n2)
  let rfiV := phaseChoice fixed_phase rfiV0 ((List.range (n2 - 1)).map phaseStream)
  aaftTail P oxV n n2 tmpV rfiV

/-- The channel loop of fourier_constrained_shuffle, threading the lazily
initialised free-phase vector rfiV (None before the first channel is
processed, as in the source) and the channel counter ii that selects each
channel's oracle streams. -/
def aaftLoop [LinearOrder K] [Inhabited K] [Zero K] [Neg K]
    (P : FourierPrims K C) (fixed_phase : Bool) (wnoise phase : ℕ → ℕ → K) :
    Option (List K) → ℕ → List (List K) → Except NpError (List (ChanRec K))
  | _, _, [] => Except.ok []
  | rfiV0, ii, c :: rest => do
    let wV := (List.range c.length).map (wnoise ii)
    let r ← aaftChannel P fixed_phase wV rfiV0 (phase ii) c
    let rs ← aaftLoop P fixed_phase wnoise phase (some r.usedPhase) (ii + 1) rest
    pure (r :: rs)

/-- fourier_constrained_shuffle(xV, fixed_phase): run the channel loop and
collect the surrogate columns (the writes zM[:, ii] into the zeros_like
output). -/
def fourier_constrained_shuffle [LinearOrder K] [Inhabited K] [Zero K] [Neg K]
    (P : FourierPrims K C) (wnoise phase : ℕ → ℕ → K) (fixed_phase : Bool)
    (xM : List (List K)) : Except NpError (List (List K)) :=
  Except.map (fun recs => recs.map ChanRec.zV)
    (aaftLoop P fixed_phase wnoise phase none 0 xM)

/-- uniform_shuffle(xV, fixed_order) (source lines 30-35).  rowPerm models
the single draw np.random.permutation(T) of the fixed_order branch (which
returns xV[rowPerm], reordering every channel identically); colPerms models
the per-channel draws of the free branch, where np.random.permutation(x)
returns the permuted copy x[colPerms j] for channel j. -/
def uniform_shuffle (rowPerm : List ℕ) (colPerms : ℕ → List ℕ)
    (fixed_order : Bool) (xM : List (List K)) : Except NpError (List (List K)) :=
  if fixed_order then
    xM.mapM fun c => fancyIndex c rowPerm
  else
    xM.enum.mapM fun jc => fancyIndex jc.2 (colPerms jc.1)

/-- The genuine forward transform: F is np.fft.fft over the reals, i.e.
F(xs, m)[k] is the sum over t < m of xs'[t] * exp(-2*pi*i*k*t/m) with xs' the
crop/zero-pad of xs to length m. -/
def IsNpFFT (F : List ℝ → ℕ → List ℂ) : Prop :=
  ∀ xs m, F xs m = (List.range m).map fun (k : ℕ) =>
    ∑ t ∈ Finset.range m,
      (((padTrunc xs m).getD t 0 : ℝ) : ℂ) *
        Complex.exp (-(2 * (Real.pi : ℂ) * (k : ℂ) * (t : ℂ) / (m : ℂ)) *
          Complex.I)

/-- The genuine inverse transform composed with the real part: F is
np.real(np.fft.ifft(xs, m)). -/
def IsNpIFFTRe (F : List ℂ → ℕ → List ℝ) : Prop :=
  ∀ xs m, F xs m = (List.range m).map fun (t : ℕ) =>
    ((m : ℂ)⁻¹ * ∑ k ∈ Finset.range m,
      (padTrunc xs m).getD k 0 *
        Complex.exp (2 * (Real.pi : ℂ) * (k : ℂ) * (t : ℂ) / (m : ℂ) *
          Complex.I)).re

/-- The genuine polar combination: F mag phase is mag * exp(i * phase), the
elementwise operation in tmpV * np.exp(nfiV * 1j). -/
def IsPolar (F : ℝ → ℝ → ℂ) : Prop :=
  ∀ mg ph, F mg ph = (mg : ℂ) * Complex.exp ((ph : ℂ) * Complex.I)

/-- The primitive bundle is the genuine numpy one over the real and complex
numbers. -/
def RealPrims (P : FourierPrims ℝ ℂ) : Prop :=
  IsNpFFT P.fft ∧ P.cabs = (fun z => Complex.abs z) ∧ P.carg = Complex.arg ∧
    IsPolar P.polar ∧ IsNpIFFTRe P.ifftRe

/-- Length contract of the transform primitives (all the structural facts the
code relies on): a transform at length m returns m values.  The genuine numpy
bundle satisfies it (realPrims_primsLen below). -/
def PrimsLen (P : FourierPrims K C) : Prop :=
  (∀ xs m, (P.fft xs m).length = m) ∧ (∀ xs m, (P.ifftRe xs m).length = m)

/-- A channel-major matrix has T samples per channel. -/
def Wellformed (T : ℕ) (xM : List (List K)) : Prop :=
  ∀ c ∈ xM, c.length = T

/-- A store of allocated arrays, for the frame claims: array identifiers are
positions, reflecting that every numpy operation the code uses (fancy
indexing, np.sort, np.argsort, np.random.permutation of an array,
np.zeros_like, arithmetic) returns a fresh array, and that the only in-place
operation in the source is the column assignment zM[:, ii] = ... . -/
abbrev StoreK (K : Type) := List (List (List K))

/-- Model of np.zeros_like(xV). -/
def zerosLike [Zero K] (xM : List (List K)) : List (List K) :=
  xM.map fun c => c.map fun _ => (0 : K)

/-- The in-place column assignment zM[:, ii] = col performed on the array at
store position i (in the channel-major representation a column of a matrix is
one channel, so the slice assignment replaces channel j). -/
def writeChan (s : StoreK K) (i j : ℕ) (col : List K) : StoreK K :=
  s.set i ((s.getD i []).set j col)

/-- The channel loop of fourier_constrained_shuffle run against the store:
each iteration computes a surrogate column from the channels read off the
input array up front (the iterator over xV.T) and assigns it in place into
the freshly allocated output array at position zId; on a numpy error the
exception propagates with the store as it stands. -/
def fourierStoreLoop [LinearOrder K] [Inhabited K] [Zero K] [Neg K]
    (P : FourierPrims K C) (fixed_phase : Bool) (wnoise phase : ℕ → ℕ → K)
    (zId : ℕ) :
    Option (List K) → ℕ → List (List K) → StoreK K →
      StoreK K × Except NpError Unit
  | _, _, [], s => (s, Except.ok ())
  | rfiV0, ii, c :: rest, s =>
    let wV := (List.range c.length).map (wnoise ii)
    match aaftChannel P fixed_phase wV rfiV0 (phase ii) c with
    | Except.error e => (s, Except.error e)
    | Except.ok r =>
        fourierStoreLoop P fixed_phase wnoise phase zId (some r.usedPhase)
          (ii + 1) rest (writeChan s zId ii r.zV)

/-- fourier_constrained_shuffle acting on the array at store position xId:
read the input channels, allocate zM = np.zeros_like(xV) as a fresh array,
then run the loop, which writes only into zM. -/
def fourierStore [LinearOrder K] [Inhabited K] [Zero K] [Neg K]
    (P : FourierPrims K C) (fixed_phase : Bool) (wnoise phase : ℕ → ℕ → K)
    (s : StoreK K) (xId : ℕ) : StoreK K × Except NpError Unit :=
  let xM := s.getD xId []
  fourierStoreLoop P fixed_phase wnoise phase s.length none 0 xM
    (s ++ [zerosLike xM])

/-- uniform_shuffle acting on the array at store position xId: both branches
build their result functionally (fancy indexing and np.random.permutation
return fresh arrays) and the result is allocated as a new array; nothing is
written in place. -/
def uniformStore (rowPerm : List ℕ) (colPerms : ℕ → List ℕ)
    (fixed_order : Bool) (s : StoreK K) (xId : ℕ) :
    StoreK K × Except NpError Unit :=
  match uniform_shuffle rowPerm colPerms fixed_order (s.getD xId []) with
  | Except.ok z => (s ++ [z], Except.ok ())
  | Except.error e => (s, Except.error e)

theorem getD_of_lt (l : List α) (d : α) {i : ℕ} (h : i < l.length) :
    l.getD i d = l[i] := by
  simp [List.getD_eq_getElem?_getD, List.getElem?_eq_getElem h]

theorem map_getD_range [Inhabited α] (l : List α) :
    (List.range l.length).map (fun i => l.getD i default) = l := by
  apply List.ext_getElem
  · simp
  · intro i h1 h2
    simp only [List.getElem_map, List.getElem_range]
    exact getD_of_lt l default h2

@[simp]
theorem except_bind_ok (a : α) (f : α → Except ε β) :
    (Except.ok a >>= f : Except ε β) = f a := rfl

@[simp]
theorem except_bind_error (e : ε) (f : α → Except ε β) :
    ((Except.error e : Except ε α) >>= f) = Except.error e := rfl

@[simp]
theorem except_map_ok (f : α → β) (a : α) :
    Except.map f (Except.ok a : Except ε α) = Except.ok (f a) := rfl

@[simp]
theorem except_map_error (f : α → β) (e : ε) :
    Except.map f (Except.error e : Except ε α) = Except.error e := rfl

theorem fancyIndex_eq_map [Inhabited α] (xs : List α) (idx : List ℕ)
    (h : ∀ i ∈ idx, i < xs.length) :
    fancyIndex xs idx = Except.ok (idx.map fun i => xs.getD i default) := by
  induction idx with
  | nil => rfl
  | cons a l ih =>
    have ha : a < xs.length := h a (List.mem_cons_self a l)
    have hl : ∀ i ∈ l, i < xs.length := fun i hi => h i (List.mem_cons_of_mem a hi)
    simp only [fancyIndex] at ih ⊢
    rw [List.mapM_cons, List.getElem?_eq_getElem ha, ih hl]
    simp [List.getElem?_eq_getElem ha]

theorem fancyIndex_range [Inhabited α] (xs : List α) :
    fancyIndex xs (List.range xs.length) = Except.ok xs := by
  rw [fancyIndex_eq_map xs _ (fun i hi => List.mem_range.1 hi), map_getD_range]

theorem argRel_iff [LinearOrder K] [Inhabited K] (xs : List K) (i j : ℕ) :
    argRel xs i j ↔ argRelLt xs i j ∨ i = j := by
  rcases Nat.lt_trichotomy i j with h | h | h
  · simp [argRel, argRelLt, h.le, h, h.ne]
  · subst h; simp [argRel, argRelLt]
  · constructor
    · rintro (hv | ⟨he, hij⟩)
      · exact Or.inl (Or.inl hv)
      · exact absurd hij (by omega)
    · rintro ((hv | ⟨he, hij⟩) | rfl)
      · exact Or.inl hv
      · omega
      · exact Or.inr ⟨rfl, le_refl _⟩

theorem argRelLt_irrefl [LinearOrder K] [Inhabited K] (xs : List K) (i : ℕ) :
    ¬ argRelLt xs i i := by
  rintro (h | ⟨_, h⟩)
  · exact lt_irrefl _ h
  · exact lt_irrefl _ h

theorem argRelLt_of_argRel_ne [LinearOrder K] [Inhabited K] {xs : List K}
    {i j : ℕ} (h : argRel xs i j) (hne : i ≠ j) : argRelLt xs i j :=
  ((argRel_iff xs i j).1 h).resolve_right hne

theorem argRel_argRelLt_absurd [LinearOrder K] [Inhabited K] {xs : List K}
    {i j : ℕ} (h1 : argRel xs i j) (h2 : argRelLt xs j i) : False := by
  rcases h1 with hv | ⟨he, hij⟩ <;> rcases h2 with hv2 | ⟨he2, hji⟩
  · exact absurd (hv.trans hv2) (lt_irrefl _)
  · exact absurd hv (he2 ▸ lt_irrefl _)
  · exact absurd hv2 (he ▸ lt_irrefl _)
  · omega

instance argRel_isTotal [LinearOrder K] [Inhabited K] (xs : List K) :
    IsTotal ℕ (argRel xs) := by
  constructor
  intro i j
  rcases lt_trichotomy (xs.getD i default) (xs.getD j default) with h | h | h
  · exact Or.inl (Or.inl h)
  · rcases Nat.le_total i j with hij | hij
    · exact Or.inl (Or.inr ⟨h, hij⟩)
    · exact Or.inr (Or.inr ⟨h.symm, hij⟩)
  · exact Or.inr (Or.inl h)

instance argRel_isTrans [LinearOrder K] [Inhabited K] (xs : List K) :
    IsTrans ℕ (argRel xs) := by
  constructor
  rintro i j k (h1 | ⟨e1, l1⟩) (h2 | ⟨e2, l2⟩)
  · exact Or.inl (h1.trans h2)
  · exact Or.inl (e2 ▸ h1)
  · exact Or.inl (e1 ▸ h2)
  · exact Or.inr ⟨e1.trans e2, l1.trans l2⟩

instance argRel_isAntisymm [LinearOrder K] [Inhabited K] (xs : List K) :
    IsAntisymm ℕ (argRel xs) := by
  constructor
  rintro i j (h1 | ⟨e1, l1⟩) (h2 | ⟨e2, l2⟩)
  · exact absurd (h1.trans h2) (lt_irrefl _)
  · exact absurd h1 (e2 ▸ lt_irrefl _)
  · exact absurd h2 (e1 ▸ lt_irrefl _)
  · omega

theorem argsort_perm [LinearOrder K] [Inhabited K] (xs : List K) :
    List.Perm (argsort xs) (List.range xs.length) :=
  List.perm_insertionSort (argRel xs) (List.range xs.length)

theorem argsort_length [LinearOrder K] [Inhabited K] (xs : List K) :
    (argsort xs).length = xs.length := by
  simpa using (argsort_perm xs).length_eq

theorem argsort_nodup [LinearOrder K] [Inhabited K] (xs : List K) :
    (argsort xs).Nodup :=
  (argsort_perm xs).nodup_iff.2 (List.nodup_range _)

theorem argsort_mem_lt [LinearOrder K] [Inhabited K] {xs : List K} {i : ℕ}
    (h : i ∈ argsort xs) : i < xs.length :=
  List.mem_range.1 ((argsort_perm xs).subset h)

theorem argsort_mem_iff [LinearOrder K] [Inhabited K] {xs : List K} {i : ℕ} :
    i ∈ argsort xs ↔ i < xs.length := by
  rw [(argsort_perm xs).mem_iff, List.mem_range]

theorem argsort_sorted [LinearOrder K] [Inhabited K] (xs : List K) :
    List.Sorted (argRel xs) (argsort xs) :=
  List.sorted_insertionSort (argRel xs) (List.range xs.length)

theorem sortL_perm [LinearOrder K] (xs : List K) : List.Perm (sortL xs) xs :=
  List.perm_insertionSort _ xs

theorem sortL_length [LinearOrder K] (xs : List K) :
    (sortL xs).length = xs.length :=
  (sortL_perm xs).length_eq

theorem sortL_sorted [LinearOrder K] (xs : List K) :
    List.Sorted (fun a b => a ≤ b) (sortL xs) :=
  List.sorted_insertionSort _ xs

theorem sortL_nodup [LinearOrder K] {xs : List K} (h : xs.Nodup) :
    (sortL xs).Nodup :=
  (sortL_perm xs).nodup_iff.2 h

theorem sortL_strictSorted [LinearOrder K] {xs : List K} (h : xs.Nodup) :
    List.Sorted (fun a b => a < b) (sortL xs) := by
  have h1 : (sortL xs).Pairwise (fun a b => a ≤ b) := sortL_sorted xs
  have h2 : (sortL xs).Pairwise (fun a b => a ≠ b) := sortL_nodup h
  exact (h1.and h2).imp fun hab => lt_of_le_of_ne hab.1 hab.2

theorem perm_map_getD_of_perm_range [Inhabited α] (xs : List α) (idx : List ℕ)
    (hp : List.Perm idx (List.range xs.length)) :
    List.Perm (idx.map fun i => xs.getD i default) xs := by
  have h1 := hp.map fun i => xs.getD i default
  rwa [map_getD_range] at h1

theorem fancyIndex_perm [Inhabited α] (xs : List α) (idx : List ℕ)
    (hp : List.Perm idx (List.range xs.length)) :
    fancyIndex xs idx = Except.ok (idx.map fun i => xs.getD i default) ∧
      List.Perm (idx.map fun i => xs.getD i default) xs := by
  refine ⟨fancyIndex_eq_map xs idx ?_, perm_map_getD_of_perm_range xs idx hp⟩
  intro i hi
  exact List.mem_range.1 (hp.subset hi)

theorem getD_indexOf_of_mem {p : List ℕ} {i : ℕ} (h : i ∈ p) :
    p.getD (p.indexOf i) default = i := by
  have hlt : p.indexOf i < p.length := List.indexOf_lt_length.2 h
  rw [getD_of_lt _ _ hlt, List.getElem_indexOf hlt]

theorem indexOf_inj_of_mem {p : List ℕ} {a b : ℕ} (ha : a ∈ p) (hb : b ∈ p)
    (h : p.indexOf a = p.indexOf b) : a = b := by
  have h1 := getD_indexOf_of_mem ha
  have h2 := getD_indexOf_of_mem hb
  rw [← h1, ← h2, h]

theorem countP_argRelLt_of_sorted [LinearOrder K] [Inhabited K] (ys : List K) :
    ∀ p : List ℕ, List.Sorted (argRel ys) p → p.Nodup → ∀ i ∈ p,
      p.countP (fun j => decide (argRelLt ys j i)) = p.indexOf i := by
  intro p
  induction p with
  | nil => intro _ _ i hi; exact absurd hi (List.not_mem_nil i)
  | cons a rest ih =>
    intro hs hn i hi
    have hhead : ∀ b ∈ rest, argRel ys a b := (List.sorted_cons.1 hs).1
    have hrest : List.Sorted (argRel ys) rest := (List.sorted_cons.1 hs).2
    have hna : a ∉ rest := (List.nodup_cons.1 hn).1
    have hnrest : rest.Nodup := (List.nodup_cons.1 hn).2
    rcases List.mem_cons.1 hi with rfl | hmem
    · have h0 : List.countP (fun j => decide (argRelLt ys j i)) rest = 0 :=
        List.countP_eq_zero.2 (by
          intro b hb
          simp only [decide_eq_true_eq]
          exact fun hlt => argRel_argRelLt_absurd (hhead b hb) hlt)
      rw [List.indexOf_cons_self, List.countP_cons, h0]
      simp [argRelLt_irrefl ys i]
    · have hne : a ≠ i := fun h => hna (h ▸ hmem)
      have hpa : argRelLt ys a i := argRelLt_of_argRel_ne (hhead i hmem) hne
      rw [List.countP_cons, ih hrest hnrest i hmem,
        List.indexOf_cons_ne rest hne]
      simp [hpa]

theorem stableRank_eq_indexOf [LinearOrder K] [Inhabited K] (ys : List K)
    {i : ℕ} (h : i < ys.length) : stableRank ys i = (argsort ys).indexOf i := by
  have hperm : List.Perm (List.range ys.length) (argsort ys) :=
    (argsort_perm ys).symm
  unfold stableRank
  rw [List.Perm.countP_eq _ hperm]
  exact countP_argRelLt_of_sorted ys (argsort ys) (argsort_sorted ys)
    (argsort_nodup ys) i (argsort_mem_iff.2 h)

theorem argsort_of_perm_range {p : List ℕ} {n : ℕ}
    (hp : List.Perm p (List.range n)) :
    argsort p = (List.range n).map fun k => p.indexOf k := by
  have hn : p.length = n := by simpa using hp.length_eq
  have hmemp : ∀ k, k < n → k ∈ p := fun k hk =>
    hp.mem_iff.2 (List.mem_range.2 hk)
  have hidxlt : ∀ k, k < n → p.indexOf k < n := fun k hk =>
    hn ▸ List.indexOf_lt_length.2 (hmemp k hk)
  have hLnodup : ((List.range n).map fun k => p.indexOf k).Nodup := by
    refine List.Nodup.map_on ?_ (List.nodup_range n)
    intro x hx y hy hxy
    exact indexOf_inj_of_mem (hmemp x (List.mem_range.1 hx))
      (hmemp y (List.mem_range.1 hy)) hxy
  have hLsub : ((List.range n).map fun k => p.indexOf k) ⊆ List.range n := by
    intro x hx
    rcases List.mem_map.1 hx with ⟨k, hk, rfl⟩
    exact List.mem_range.2 (hidxlt k (List.mem_range.1 hk))
  have hLperm : List.Perm ((List.range n).map fun k => p.indexOf k)
      (List.range n) :=
    (List.subperm_of_subset hLnodup hLsub).perm_of_length_le (by simp)
  have hqperm : List.Perm (argsort p)
      ((List.range n).map fun k => p.indexOf k) :=
    ((argsort_perm p).trans (by rw [hn])).trans hLperm.symm
  have hLsorted : List.Sorted (argRel p)
      ((List.range n).map fun k => p.indexOf k) := by
    rw [List.Sorted, List.pairwise_map]
    refine (List.pairwise_lt_range n).imp_of_mem ?_
    intro a b ha hb hab
    left
    rw [getD_indexOf_of_mem (hmemp a (List.mem_range.1 ha)),
      getD_indexOf_of_mem (hmemp b (List.mem_range.1 hb))]
    exact hab
  exact List.eq_of_perm_of_sorted hqperm (argsort_sorted p) hLsorted

theorem argsort_argsort_getD [LinearOrder K] [Inhabited K] (ys : List K)
    {i : ℕ} (h : i < ys.length) :
    (argsort (argsort ys)).getD i default = stableRank ys i := by
  have hp : List.Perm (argsort ys) (List.range ys.length) := argsort_perm ys
  rw [argsort_of_perm_range hp]
  rw [getD_of_lt _ _ (by simp [h])]
  rw [List.getElem_map, List.getElem_range]
  exact (stableRank_eq_indexOf ys h).symm

theorem indexOf_sorted_lt_iff [LinearOrder K] [Inhabited K] (ys : List K)
    {a b : ℕ} (ha : a < ys.length) (hb : b < ys.length) :
    (argsort ys).indexOf a < (argsort ys).indexOf b ↔ argRelLt ys a b := by
  have hma : a ∈ argsort ys := argsort_mem_iff.2 ha
  have hmb : b ∈ argsort ys := argsort_mem_iff.2 hb
  have hforward : ∀ x y : ℕ, x ∈ argsort ys → y ∈ argsort ys →
      argRelLt ys x y → (argsort ys).indexOf x < (argsort ys).indexOf y := by
    intro x y hmx hmy hxy
    by_contra hle
    push_neg at hle
    rcases Nat.lt_or_ge ((argsort ys).indexOf y) ((argsort ys).indexOf x)
      with hlt | hge
    · have hyx : argRel ys y x := by
        have := List.pairwise_iff_get.1 (argsort_sorted ys)
          ⟨(argsort ys).indexOf y, List.indexOf_lt_length.2 hmy⟩
          ⟨(argsort ys).indexOf x, List.indexOf_lt_length.2 hmx⟩ hlt
        simpa [List.get_eq_getElem, List.getElem_indexOf] using this
      exact argRel_argRelLt_absurd hyx hxy
    · have heq : (argsort ys).indexOf x = (argsort ys).indexOf y :=
        le_antisymm hge hle
      have := indexOf_inj_of_mem hmx hmy heq
      subst this
      exact argRelLt_irrefl ys x hxy
  constructor
  · intro hlt
    by_contra hnot
    have hba : argRel ys b a := by
      rcases IsTotal.total (r := argRel ys) a b with hab | hba
      · rcases (argRel_iff ys a b).1 hab with h1 | rfl
        · exact absurd h1 hnot
        · exact absurd hlt (lt_irrefl _)
      · exact hba
    rcases (argRel_iff ys b a).1 hba with h2 | rfl
    · exact absurd hlt (Nat.lt_asymm (hforward b a hmb hma h2))
    · exact absurd hlt (lt_irrefl _)
  · exact hforward a b hma hmb

theorem stableRank_lt_iff [LinearOrder K] [Inhabited K] (ys : List K)
    {a b : ℕ} (ha : a < ys.length) (hb : b < ys.length) :
    stableRank ys a < stableRank ys b ↔ argRelLt ys a b := by
  rw [stableRank_eq_indexOf ys ha, stableRank_eq_indexOf ys hb]
  exact indexOf_sorted_lt_iff ys ha hb

theorem stableRank_inj_iff [LinearOrder K] [Inhabited K] (ys : List K)
    {a b : ℕ} (ha : a < ys.length) (hb : b < ys.length) :
    stableRank ys a = stableRank ys b ↔ a = b := by
  constructor
  · intro h
    rw [stableRank_eq_indexOf ys ha, stableRank_eq_indexOf ys hb] at h
    exact indexOf_inj_of_mem (argsort_mem_iff.2 ha) (argsort_mem_iff.2 hb) h
  · intro h; rw [h]

theorem stableRank_lt_length [LinearOrder K] [Inhabited K] (ys : List K)
    {i : ℕ} (h : i < ys.length) : stableRank ys i < ys.length := by
  rw [stableRank_eq_indexOf ys h]
  have := List.indexOf_lt_length.2 (argsort_mem_iff.2 h)
  rwa [argsort_length] at this

theorem throw_eq_error (e : ε) : (throw e : Except ε α) = Except.error e := rfl

theorem primsLen_fft {P : FourierPrims K C} (hP : PrimsLen P) (xs : List K)
    (m : ℕ) : (P.fft xs m).length = m := hP.1 xs m

theorem primsLen_ifft {P : FourierPrims K C} (hP : PrimsLen P) (xs : List C)
    (m : ℕ) : (P.ifftRe xs m).length = m := hP.2 xs m

theorem realPrims_primsLen {P : FourierPrims ℝ ℂ} (hP : RealPrims P) :
    PrimsLen P := by
  obtain ⟨hfft, _, _, _, hifft⟩ := hP
  constructor
  · intro xs m; rw [hfft xs m]; simp
  · intro xs m; rw [hifft xs m]; simp

theorem nfiV_getD_mid [Zero K] [Inhabited K] (rfiV rest2 : List K) (fi1 : K)
    (n2 : ℕ) (hr : rfiV.length = n2 - 1) (h1 : 1 ≤ n2) :
    ((((0 : K) :: rfiV) ++ ([fi1] ++ rest2)).getD n2 default) = fi1 := by
  have hle : ((0 : K) :: rfiV).length ≤ n2 := by simp [hr]; omega
  have hz : n2 - ((0 : K) :: rfiV).length = 0 := by simp [hr]; omega
  rw [List.getD_eq_getElem?_getD, List.getElem?_append_right hle, hz]
  simp

theorem aaftTail_ok [LinearOrder K] [Inhabited K] [Zero K] [Neg K]
    {C : Type} (P : FourierPrims K C) (hP : PrimsLen P) (oxV : List K)
    (n n2 : ℕ) (tmpV : List C) (rfiV : List K)
    (htmp : tmpV.length = 2 * n2) (hn2 : 2 ≤ n2) (hox : oxV.length = n)
    (hrfiV : rfiV.length = n2 - 1) :
    ∃ r : ChanRec K, aaftTail P oxV n n2 tmpV rfiV = Except.ok r ∧
      r.yftV.length = n ∧
      r.zV = (argsort (argsort r.yftV)).map (fun i => oxV.getD i default) ∧
      r.zV.length = n ∧
      r.usedPhase = rfiV ∧
      r.nfiV.getD n2 default = (tmpV.map P.carg).getD (n2 + 1) default := by
  have hfiVlen : ((tmpV.map P.carg)).length = 2 * n2 := by simp [htmp]
  have hidx : n2 + 1 < ((tmpV.map P.carg)).length := by rw [hfiVlen]; omega
  have hsome : ((tmpV.map P.carg))[n2 + 1]? =
      some (((tmpV.map P.carg)).getD (n2 + 1) default) := by
    rw [List.getElem?_eq_getElem hidx, getD_of_lt _ _ hidx]
  have hyftlen : (P.ifftRe
      (List.zipWith P.polar
        ((tmpV.map P.cabs).take (n2 + 1) ++
          revSliceToOne (tmpV.map P.cabs) (n2 - 1))
        (((0 : K) :: rfiV) ++
          ([((tmpV.map P.carg)).getD (n2 + 1) default] ++
            rfiV.reverse.map fun a => -a)))
      n).length = n := primsLen_ifft hP _ _
  have hzV_bounds : ∀ i ∈ argsort (argsort (P.ifftRe
      (List.zipWith P.polar
        ((tmpV.map P.cabs).take (n2 + 1) ++
          revSliceToOne (tmpV.map P.cabs) (n2 - 1))
        (((0 : K) :: rfiV) ++
          ([((tmpV.map P.carg)).getD (n2 + 1) default] ++
            rfiV.reverse.map fun a => -a)))
      n)), i < oxV.length := by
    intro i hi
    have h1 := argsort_mem_lt hi
    rw [argsort_length, hyftlen] at h1
    rw [hox]
    exact h1
  have hzV := fancyIndex_eq_map oxV _ hzV_bounds
  simp only [aaftTail, hsome, hzV, except_bind_ok]
  refine ⟨_, rfl, hyftlen, rfl, ?_, rfl, ?_⟩
  · rw [List.length_map, argsort_length, argsort_length, hyftlen]
  · exact nfiV_getD_mid rfiV _ _ n2 hrfiV (by omega)

theorem aaftChannel_ok [LinearOrder K] [Inhabited K] [Zero K] [Neg K]
    {C : Type} (P : FourierPrims K C) (hP : PrimsLen P) (fp : Bool)
    (wV : List K) (rfiV0 : Option (List K)) (ph : ℕ → K) (xV_ : List K)
    {T : ℕ} (hx : xV_.length = T) (hw : wV.length = T) (hT : 4 ≤ T)
    (hst : ∀ v, rfiV0 = some v → v.length = T / 2 - 1) :
    ∃ r : ChanRec K, aaftChannel P fp wV rfiV0 ph xV_ = Except.ok r ∧
      r.yftV.length = T ∧
      r.zV = (argsort (argsort r.yftV)).map (fun i => (sortL xV_).getD i default) ∧
      List.Perm r.zV xV_ ∧
      r.zV.length = T ∧
      r.usedPhase = phaseChoice fp rfiV0 ((List.range (T / 2 - 1)).map ph) ∧
      r.usedPhase.length = T / 2 - 1 ∧
      r.nfiV.getD (T / 2) default =
        ((P.fft ((argsort (argsort xV_)).map fun i => (sortL wV).getD i default)
            (2 * (T / 2))).map P.carg).getD (T / 2 + 1) default := by
  subst hx
  have hn0 : ¬ (2 * (xV_.length / 2) = 0) := by omega
  have hixV_bounds : ∀ i ∈ argsort (argsort xV_), i < (sortL wV).length := by
    intro i hi
    have h1 := argsort_mem_lt hi
    rw [argsort_length] at h1
    rw [sortL_length, hw]
    exact h1
  have hyV : fancyIndex (sortL wV) (argsort (argsort xV_)) =
      Except.ok ((argsort (argsort xV_)).map fun i => (sortL wV).getD i default) :=
    fancyIndex_eq_map _ _ hixV_bounds
  have hrfiVlen : (phaseChoice fp rfiV0
      ((List.range (xV_.length / 2 - 1)).map ph) : List K).length =
      xV_.length / 2 - 1 := by
    rcases fp with _ | _
    · simp [phaseChoice]
    · rcases rfiV0 with _ | v
      · simp [phaseChoice]
      · exact hst v rfl
  obtain ⟨r, hr, h1, h2, h3, h4, h5⟩ := aaftTail_ok P hP (sortL xV_)
    xV_.length (xV_.length / 2)
    (P.fft ((argsort (argsort xV_)).map fun i => (sortL wV).getD i default)
      (2 * (xV_.length / 2)))
    (phaseChoice fp rfiV0 ((List.range (xV_.length / 2 - 1)).map ph))
    (primsLen_fft hP _ _) (by omega) (sortL_length xV_) hrfiVlen
  refine ⟨r, ?_, h1, h2, ?_, h3, h4, by rw [h4]; exact hrfiVlen, h5⟩
  · simp only [aaftChannel, hyV, except_bind_ok, if_neg hn0]
    exact hr
  · rw [h2]
    have hperm : List.Perm (argsort (argsort r.yftV))
        (List.range (sortL xV_).length) := by
      rw [sortL_length, ← h1, ← argsort_length r.yftV]
      exact argsort_perm (argsort r.yftV)
    exact (perm_map_getD_of_perm_range (sortL xV_) _ hperm).trans (sortL_perm xV_)

theorem phaseChoice_true (o : Option A) (d : A) :
    phaseChoice true o d = o.getD d := by
  cases o <;> rfl

theorem phaseChoice_false (o : Option A) (d : A) :
    phaseChoice false o d = d := by
  cases o <;> rfl

theorem except_bind_pure_ok {e : Except ε α} {f : α → β} {r : β}
    (h : (e >>= fun a => pure (f a)) = Except.ok r) :
    ∃ a, e = Except.ok a ∧ r = f a := by
  cases e with
  | error err => exact absurd h (by simp)
  | ok a =>
    refine ⟨a, rfl, ?_⟩
    simp only [except_bind_ok] at h
    exact (Except.ok.inj h).symm

theorem aaftTail_usedPhase [LinearOrder K] [Inhabited K] [Zero K] [Neg K]
    {C : Type} {P : FourierPrims K C} {oxV : List K} {n n2 : ℕ}
    {tmpV : List C} {rfiV : List K} {r : ChanRec K}
    (h : aaftTail P oxV n n2 tmpV rfiV = Except.ok r) : r.usedPhase = rfiV := by
  simp only [aaftTail] at h
  split at h
  · exact absurd h (by simp [throw_eq_error])
  · obtain ⟨a, _, hr⟩ := except_bind_pure_ok h
    rw [hr]

theorem aaftChannel_usedPhase [LinearOrder K] [Inhabited K] [Zero K] [Neg K]
    {C : Type} {P : FourierPrims K C} {fp : Bool} {wV : List K}
    {rfiV0 : Option (List K)} {ph : ℕ → K} {xV_ : List K} {r : ChanRec K}
    (h : aaftChannel P fp wV rfiV0 ph xV_ = Except.ok r) :
    r.usedPhase =
      phaseChoice fp rfiV0 ((List.range (xV_.length / 2 - 1)).map ph) := by
  simp only [aaftChannel] at h
  cases hf : fancyIndex (sortL wV) (argsort (argsort xV_)) with
  | error e => rw [hf] at h; exact absurd h (by simp)
  | ok yV =>
    rw [hf] at h
    simp only [except_bind_ok] at h
    by_cases h0 : 2 * (xV_.length / 2) = 0
    · rw [if_pos h0] at h; exact absurd h (by simp [throw_eq_error])
    · rw [if_neg h0] at h
      exact aaftTail_usedPhase h

theorem aaftLoop_cons_inv [LinearOrder K] [Inhabited K] [Zero K] [Neg K]
    {C : Type} {P : FourierPrims K C} {fp : Bool} {wnoise phase : ℕ → ℕ → K}
    {rfiV0 : Option (List K)} {ii : ℕ} {c : List K} {rest : List (List K)}
    {recs : List (ChanRec K)}
    (h : aaftLoop P fp wnoise phase rfiV0 ii (c :: rest) = Except.ok recs) :
    ∃ r recs',
      aaftChannel P fp ((List.range c.length).map (wnoise ii)) rfiV0
        (phase ii) c = Except.ok r ∧
      aaftLoop P fp wnoise phase (some r.usedPhase) (ii + 1) rest =
        Except.ok recs' ∧
      recs = r :: recs' := by
  simp only [aaftLoop] at h
  cases hc : aaftChannel P fp ((List.range c.length).map (wnoise ii)) rfiV0
      (phase ii) c with
  | error e => rw [hc] at h; exact absurd h (by simp)
  | ok r =>
    rw [hc] at h
    simp only [except_bind_ok] at h
    cases hrest : aaftLoop P fp wnoise phase (some r.usedPhase) (ii + 1)
        rest with
    | error e => rw [hrest] at h; exact absurd h (by simp)
    | ok recs' =>
      rw [hrest] at h
      simp only [except_bind_ok] at h
      exact ⟨r, recs', rfl, hrest, (Except.ok.inj h).symm⟩

theorem aaftLoop_err_head [LinearOrder K] [Inhabited K] [Zero K] [Neg K]
    {C : Type} {P : FourierPrims K C} {fp : Bool} {wnoise phase : ℕ → ℕ → K}
    {rfiV0 : Option (List K)} {ii : ℕ} {c : List K} {rest : List (List K)}
    {e : NpError}
    (h : aaftChannel P fp ((List.range c.length).map (wnoise ii)) rfiV0
      (phase ii) c = Except.error e) :
    aaftLoop P fp wnoise phase rfiV0 ii (c :: rest) = Except.error e := by
  simp only [aaftLoop, h, except_bind_error]

theorem aaftLoop_usedPhase_fixed [LinearOrder K] [Inhabited K] [Zero K]
    [Neg K] {C : Type} {P : FourierPrims K C} {wnoise phase : ℕ → ℕ → K}
    {T : ℕ} :
    ∀ (chans : List (List K)) (rfiV0 : Option (List K)) (ii : ℕ)
      (recs : List (ChanRec K)), (∀ c ∈ chans, c.length = T) →
      aaftLoop P true wnoise phase rfiV0 ii chans = Except.ok recs →
      ∀ (j : ℕ) (r : ChanRec K), recs[j]? = some r →
        r.usedPhase = rfiV0.getD ((List.range (T / 2 - 1)).map (phase ii)) := by
  intro chans
  induction chans with
  | nil =>
    intro rfiV0 ii recs _ h j r hj
    simp only [aaftLoop] at h
    rw [← Except.ok.inj h] at hj
    simp at hj
  | cons c rest ih =>
    intro rfiV0 ii recs hwf h j r hj
    obtain ⟨r0, recs', hc, hrest, rfl⟩ := aaftLoop_cons_inv h
    have hcT : c.length = T := hwf c (List.mem_cons_self c rest)
    have hr0 : r0.usedPhase =
        rfiV0.getD ((List.range (T / 2 - 1)).map (phase ii)) := by
      rw [aaftChannel_usedPhase hc, phaseChoice_true, hcT]
    cases j with
    | zero =>
      rw [List.getElem?_cons_zero] at hj
      rw [← Option.some.inj hj]
      exact hr0
    | succ j =>
      rw [List.getElem?_cons_succ] at hj
      have := ih (some r0.usedPhase) (ii + 1) recs'
        (fun d hd => hwf d (List.mem_cons_of_mem c hd)) hrest j r hj
      rw [this, Option.getD_some, hr0]

theorem aaftLoop_usedPhase_free [LinearOrder K] [Inhabited K] [Zero K]
    [Neg K] {C : Type} {P : FourierPrims K C} {wnoise phase : ℕ → ℕ → K}
    {T : ℕ} :
    ∀ (chans : List (List K)) (rfiV0 : Option (List K)) (ii : ℕ)
      (recs : List (ChanRec K)), (∀ c ∈ chans, c.length = T) →
      aaftLoop P false wnoise phase rfiV0 ii chans = Except.ok recs →
      ∀ (j : ℕ) (r : ChanRec K), recs[j]? = some r →
        r.usedPhase = (List.range (T / 2 - 1)).map (phase (ii + j)) := by
  intro chans
  induction chans with
  | nil =>
    intro rfiV0 ii recs _ h j r hj
    simp only [aaftLoop] at h
    rw [← Except.ok.inj h] at hj
    simp at hj
  | cons c rest ih =>
    intro rfiV0 ii recs hwf h j r hj
    obtain ⟨r0, recs', hc, hrest, rfl⟩ := aaftLoop_cons_inv h
    have hcT : c.length = T := hwf c (List.mem_cons_self c rest)
    cases j with
    | zero =>
      rw [List.getElem?_cons_zero] at hj
      rw [← Option.some.inj hj]
      rw [aaftChannel_usedPhase hc, phaseChoice_false, hcT, Nat.add_zero]
    | succ j =>
      rw [List.getElem?_cons_succ] at hj
      have := ih (some r0.usedPhase) (ii + 1) recs'
        (fun d hd => hwf d (List.mem_cons_of_mem c hd)) hrest j r hj
      have harith : ii + 1 + j = ii + (j + 1) := by omega
      rw [this, harith]

theorem aaftLoop_ok [LinearOrder K] [Inhabited K] [Zero K] [Neg K]
    {C : Type} (P : FourierPrims K C) (hP : PrimsLen P) (fp : Bool)
    (wnoise phase : ℕ → ℕ → K) {T : ℕ} (hT : 4 ≤ T) :
    ∀ (chans : List (List K)) (rfiV0 : Option (List K)) (ii : ℕ),
      (∀ c ∈ chans, c.length = T) →
      (∀ v, rfiV0 = some v → v.length = T / 2 - 1) →
      ∃ recs, aaftLoop P fp wnoise phase rfiV0 ii chans = Except.ok recs ∧
        recs.length = chans.length ∧
        ∀ (j : ℕ) (r : ChanRec K) (c : List K),
          recs[j]? = some r → chans[j]? = some c →
          r.yftV.length = T ∧
          r.zV = (argsort (argsort r.yftV)).map
            (fun i => (sortL c).getD i default) ∧
          List.Perm r.zV c ∧ r.zV.length = T := by
  intro chans
  induction chans with
  | nil =>
    intro rfiV0 ii _ _
    refine ⟨[], rfl, rfl, ?_⟩
    intro j r c hj
    simp at hj
  | cons c rest ih =>
    intro rfiV0 ii hwf hst
    have hcT : c.length = T := hwf c (List.mem_cons_self c rest)
    obtain ⟨r, hr, hyl, hzf, hzp, hzl, hup, hul, _⟩ :=
      aaftChannel_ok P hP fp ((List.range c.length).map (wnoise ii)) rfiV0
        (phase ii) c hcT (by simp [hcT]) hT hst
    have hst' : ∀ v, (some r.usedPhase : Option (List K)) = some v →
        v.length = T / 2 - 1 := by
      intro v hv
      rw [← Option.some.inj hv]
      exact hul
    obtain ⟨recs', hrest, hlen', hfacts'⟩ :=
      ih (some r.usedPhase) (ii + 1) (fun d hd => hwf d (List.mem_cons_of_mem c hd)) hst'
    refine ⟨r :: recs', ?_, by simp [hlen'], ?_⟩
    · simp only [aaftLoop]
      rw [hr]
      simp only [except_bind_ok]
      rw [hrest]
      simp only [except_bind_ok]
      rfl
    · intro j rr cc hj hc
      cases j with
      | zero =>
        rw [List.getElem?_cons_zero] at hj hc
        rw [← Option.some.inj hj, ← Option.some.inj hc]
        exact ⟨hyl, hzf, hzp, hzl⟩
      | succ j =>
        rw [List.getElem?_cons_succ] at hj hc
        exact hfacts' j rr cc hj hc

theorem aaftTail_err [LinearOrder K] [Inhabited K] [Zero K] [Neg K]
    {C : Type} (P : FourierPrims K C) (oxV : List K) (n n2 : ℕ)
    (tmpV : List C) (rfiV : List K) (hlen : tmpV.length ≤ n2 + 1) :
    aaftTail P oxV n n2 tmpV rfiV = Except.error NpError.indexOutOfBounds := by
  have hnone : ((tmpV.map P.carg))[n2 + 1]? = none :=
    List.getElem?_eq_none (by simpa using hlen)
  simp only [aaftTail, hnone]
  rfl

theorem aaftChannel_err_fft0 [LinearOrder K] [Inhabited K] [Zero K] [Neg K]
    {C : Type} (P : FourierPrims K C) (fp : Bool) (wV : List K)
    (rfiV0 : Option (List K)) (ph : ℕ → K) (xV_ : List K)
    (hw : wV.length = xV_.length) (h0 : xV_.length / 2 = 0) :
    aaftChannel P fp wV rfiV0 ph xV_ = Except.error NpError.invalidFFTLength := by
  have hixV_bounds : ∀ i ∈ argsort (argsort xV_), i < (sortL wV).length := by
    intro i hi
    have h1 := argsort_mem_lt hi
    rw [argsort_length] at h1
    rw [sortL_length, hw]
    exact h1
  have hyV := fancyIndex_eq_map (sortL wV) _ hixV_bounds
  simp only [aaftChannel, hyV, except_bind_ok, h0]
  rfl

theorem aaftChannel_err_idx [LinearOrder K] [Inhabited K] [Zero K] [Neg K]
    {C : Type} (P : FourierPrims K C) (hP : PrimsLen P) (fp : Bool)
    (wV : List K) (rfiV0 : Option (List K)) (ph : ℕ → K) (xV_ : List K)
    (hw : wV.length = xV_.length) (h1 : xV_.length / 2 = 1) :
    aaftChannel P fp wV rfiV0 ph xV_ = Except.error NpError.indexOutOfBounds := by
  have hixV_bounds : ∀ i ∈ argsort (argsort xV_), i < (sortL wV).length := by
    intro i hi
    have hb := argsort_mem_lt hi
    rw [argsort_length] at hb
    rw [sortL_length, hw]
    exact hb
  have hyV := fancyIndex_eq_map (sortL wV) _ hixV_bounds
  have hne : ¬ (2 * (xV_.length / 2) = 0) := by omega
  simp only [aaftChannel, hyV, except_bind_ok, if_neg hne]
  exact aaftTail_err P (sortL xV_) xV_.length (xV_.length / 2) _ _
    (by rw [primsLen_fft hP]; omega)

theorem fourier_ok [LinearOrder K] [Inhabited K] [Zero K] [Neg K]
    {C : Type} (P : FourierPrims K C) (hP : PrimsLen P) (fp : Bool)
    (wnoise phase : ℕ → ℕ → K) {T : ℕ} (hT : 4 ≤ T) (xM : List (List K))
    (hwf : Wellformed T xM) :
    ∃ out, fourier_constrained_shuffle P wnoise phase fp xM = Except.ok out ∧
      out.length = xM.length ∧
      ∀ (j : ℕ) (oc c : List K), out[j]? = some oc → xM[j]? = some c →
        oc.length = T ∧ List.Perm oc c := by
  obtain ⟨recs, hrun, hlen, hfacts⟩ := aaftLoop_ok P hP fp wnoise phase hT
    xM none 0 hwf (by intro v hv; cases hv)
  refine ⟨recs.map ChanRec.zV, ?_, by simp [hlen], ?_⟩
  · rw [fourier_constrained_shuffle, hrun]
    rfl
  · intro j oc c hj hc
    rw [List.getElem?_map] at hj
    cases hr : recs[j]? with
    | none => rw [hr] at hj; simp at hj
    | some r =>
      rw [hr] at hj
      simp only [Option.map_some'] at hj
      obtain ⟨_, _, h3, h4⟩ := hfacts j r c hr hc
      have hoc : oc = r.zV := (Option.some.inj hj).symm
      rw [hoc]
      exact ⟨h4, h3⟩

theorem fourier_err_small [LinearOrder K] [Inhabited K] [Zero K] [Neg K]
    {C : Type} (P : FourierPrims K C) (hP : PrimsLen P) (fp : Bool)
    (wnoise phase : ℕ → ℕ → K) {T : ℕ} (xM : List (List K))
    (hwf : Wellformed T xM) (hne : xM ≠ []) (hT : T < 4) :
    fourier_constrained_shuffle P wnoise phase fp xM = Except.error
      (if T ≤ 1 then NpError.invalidFFTLength else NpError.indexOutOfBounds) := by
  cases xM with
  | nil => exact absurd rfl hne
  | cons c rest =>
    have hcT : c.length = T := hwf c (List.mem_cons_self c rest)
    have hwlen : ((List.range c.length).map (wnoise 0)).length = c.length := by
      simp
    rcases Nat.lt_or_ge T 2 with h2 | h2
    · have h0 : c.length / 2 = 0 := by omega
      have herr := aaftChannel_err_fft0 P fp _ none (phase 0) c hwlen h0
      rw [fourier_constrained_shuffle, aaftLoop_err_head herr, if_pos (by omega)]
      rfl
    · have h1 : c.length / 2 = 1 := by omega
      have herr := aaftChannel_err_idx P hP fp _ none (phase 0) c hwlen h1
      rw [fourier_constrained_shuffle, aaftLoop_err_head herr, if_neg (by omega)]
      rfl

theorem mapM_ok_of_ok {f : α → Except ε β} {g : α → β} :
    ∀ l : List α, (∀ a ∈ l, f a = Except.ok (g a)) →
      l.mapM f = Except.ok (l.map g) := by
  intro l
  induction l with
  | nil => intro _; rfl
  | cons a t ih =>
    intro h
    rw [List.mapM_cons, h a (List.mem_cons_self a t),
      ih fun b hb => h b (List.mem_cons_of_mem a hb)]
    simp

theorem uniform_fixed_eq [LinearOrder K] [Inhabited K] (rowPerm : List ℕ)
    (cp : ℕ → List ℕ) {T : ℕ} (xM : List (List K)) (hwf : Wellformed T xM)
    (hp : List.Perm rowPerm (List.range T)) :
    uniform_shuffle rowPerm cp true xM =
      Except.ok (xM.map fun c => rowPerm.map fun i => c.getD i default) := by
  rw [uniform_shuffle, if_pos rfl]
  exact mapM_ok_of_ok xM fun c hc => fancyIndex_eq_map c rowPerm fun i hi => by
    rw [hwf c hc]
    exact List.mem_range.1 (hp.subset hi)

theorem uniform_free_eq [LinearOrder K] [Inhabited K] (rowPerm : List ℕ)
    (cp : ℕ → List ℕ) {T : ℕ} (xM : List (List K)) (hwf : Wellformed T xM)
    (hps : ∀ j < xM.length, List.Perm (cp j) (List.range T)) :
    uniform_shuffle rowPerm cp false xM =
      Except.ok (xM.enum.map fun jc => (cp jc.1).map fun i => jc.2.getD i default) := by
  rw [uniform_shuffle, if_neg (by simp)]
  refine mapM_ok_of_ok xM.enum fun jc hjc => ?_
  have h1 : xM[jc.1]? = some jc.2 := List.mem_enum_iff_getElem?.1 hjc
  have hmem : jc.2 ∈ xM ∧ jc.1 < xM.length := by
    constructor
    · exact List.getElem?_mem h1
    · exact (List.getElem?_eq_some.1 h1).1
  refine fancyIndex_eq_map jc.2 (cp jc.1) fun i hi => ?_
  rw [hwf jc.2 hmem.1]
  exact List.mem_range.1 ((hps jc.1 hmem.2).subset hi)

theorem sorted_lt_getD_iff [LinearOrder K] [Inhabited K] {xs : List K}
    (hs : List.Sorted (fun a b => a < b) xs) {a b : ℕ} (ha : a < xs.length)
    (hb : b < xs.length) :
    (xs.getD a default < xs.getD b default ↔ a < b) ∧
      (xs.getD a default = xs.getD b default ↔ a = b) := by
  have hmono : ∀ x y : ℕ, x < y → y < xs.length →
      xs.getD x default < xs.getD y default := by
    intro x y hxy hy
    have hx : x < xs.length := hxy.trans hy
    rw [getD_of_lt _ _ hx, getD_of_lt _ _ hy]
    exact List.pairwise_iff_get.1 hs ⟨x, hx⟩ ⟨y, hy⟩ hxy
  constructor
  · constructor
    · intro hlt
      rcases Nat.lt_trichotomy a b with h | h | h
      · exact h
      · exact absurd hlt (h ▸ lt_irrefl _)
      · exact absurd (hlt.trans (hmono b a h ha)) (lt_irrefl _)
    · intro h; exact hmono a b h hb
  · constructor
    · intro heq
      rcases Nat.lt_trichotomy a b with h | h | h
      · exact absurd (heq ▸ hmono a b h hb) (lt_irrefl _)
      · exact h
      · exact absurd (heq ▸ hmono b a h ha) (lt_irrefl _)
    · intro h; rw [h]

theorem rankMap_getD [LinearOrder K] [Inhabited K] (ys oxV : List K) {i : ℕ}
    (hi : i < ys.length) :
    ((argsort (argsort ys)).map fun k => oxV.getD k default).getD i default =
      oxV.getD (stableRank ys i) default := by
  have hlen : i < ((argsort (argsort ys)).map
      fun k => oxV.getD k default).length := by
    rw [List.length_map, argsort_length, argsort_length]
    exact hi
  have hlen2 : i < (argsort (argsort ys)).length := by
    rw [argsort_length, argsort_length]
    exact hi
  rw [getD_of_lt _ _ hlen, List.getElem_map]
  congr 1
  rw [← getD_of_lt _ default hlen2]
  exact argsort_argsort_getD ys hi

theorem argRel_rankMap_iff [LinearOrder K] [Inhabited K] (ys xs : List K)
    (hlen : xs.length = ys.length)
    (hsorted : List.Sorted (fun a b => a < b) xs) {i j : ℕ}
    (hi : i < ys.length) (hj : j < ys.length) :
    argRel ((argsort (argsort ys)).map fun k => xs.getD k default) i j ↔
      argRel ys i j := by
  have hzi := rankMap_getD ys xs hi
  have hzj := rankMap_getD ys xs hj
  have hri : stableRank ys i < xs.length := hlen ▸ stableRank_lt_length ys hi
  have hrj : stableRank ys j < xs.length := hlen ▸ stableRank_lt_length ys hj
  have hx := sorted_lt_getD_iff hsorted hri hrj
  constructor
  · rintro (hlt | ⟨heq, hle⟩)
    · rw [hzi, hzj] at hlt
      have hrlt : stableRank ys i < stableRank ys j := hx.1.1 hlt
      rw [argRel_iff]
      exact Or.inl ((stableRank_lt_iff ys hi hj).1 hrlt)
    · rw [hzi, hzj] at heq
      have hreq : stableRank ys i = stableRank ys j := hx.2.1 heq
      rw [argRel_iff]
      exact Or.inr ((stableRank_inj_iff ys hi hj).1 hreq)
  · intro h
    rcases (argRel_iff ys i j).1 h with hlt | rfl
    · have hrlt : stableRank ys i < stableRank ys j :=
        (stableRank_lt_iff ys hi hj).2 hlt
      left
      rw [hzi, hzj]
      exact hx.1.2 hrlt
    · right
      exact ⟨by rw [hzi], le_refl i⟩

theorem argsort_rankMap_eq [LinearOrder K] [Inhabited K] (ys xs : List K)
    (hlen : xs.length = ys.length)
    (hsorted : List.Sorted (fun a b => a < b) xs) :
    argsort ((argsort (argsort ys)).map fun k => xs.getD k default) =
      argsort ys := by
  have hzlen : ((argsort (argsort ys)).map
      fun k => xs.getD k default).length = ys.length := by
    rw [List.length_map, argsort_length, argsort_length]
  have hperm : List.Perm
      (argsort ((argsort (argsort ys)).map fun k => xs.getD k default))
      (argsort ys) := by
    refine ((argsort_perm _).trans ?_).trans (argsort_perm ys).symm
    rw [hzlen]
  have hsorted2 : List.Sorted (argRel ys)
      (argsort ((argsort (argsort ys)).map fun k => xs.getD k default)) := by
    refine List.Pairwise.imp_of_mem ?_ (argsort_sorted _)
    intro a b hma hmb hab
    have hla : a < ys.length := by
      have := argsort_mem_lt hma
      rwa [hzlen] at this
    have hlb : b < ys.length := by
      have := argsort_mem_lt hmb
      rwa [hzlen] at this
    exact (argRel_rankMap_iff ys xs hlen hsorted hla hlb).1 hab
  exact List.eq_of_perm_of_sorted hperm hsorted2 (argsort_sorted ys)

theorem writeChan_getD_ne (s : StoreK K) (i j : ℕ) (col : List K) (k : ℕ)
    (hne : i ≠ k) : (writeChan s i j col).getD k [] = s.getD k [] := by
  unfold writeChan
  rw [List.getD_eq_getElem?_getD, List.getElem?_set_ne hne,
    List.getD_eq_getElem?_getD]

theorem fourierStoreLoop_preserves [LinearOrder K] [Inhabited K] [Zero K]
    [Neg K] {C : Type} (P : FourierPrims K C) (fp : Bool)
    (wnoise phase : ℕ → ℕ → K) (zId : ℕ) :
    ∀ (chans : List (List K)) (rfiV0 : Option (List K)) (ii : ℕ)
      (s : StoreK K) (k : ℕ), zId ≠ k →
      ((fourierStoreLoop P fp wnoise phase zId rfiV0 ii chans s).1).getD k [] =
        s.getD k [] := by
  intro chans
  induction chans with
  | nil => intro rfiV0 ii s k _; rfl
  | cons c rest ih =>
    intro rfiV0 ii s k hne
    simp only [fourierStoreLoop]
    cases hc : aaftChannel P fp ((List.range c.length).map (wnoise ii)) rfiV0
        (phase ii) c with
    | error e => rfl
    | ok r =>
      rw [ih (some r.usedPhase) (ii + 1) (writeChan s zId ii r.zV) k hne]
      exact writeChan_getD_ne s zId ii r.zV k hne

theorem fourierStore_preserves [LinearOrder K] [Inhabited K] [Zero K] [Neg K]
    {C : Type} (P : FourierPrims K C) (fp : Bool)
    (wnoise phase : ℕ → ℕ → K) (s : StoreK K) (xId : ℕ)
    (hx : xId < s.length) :
    ((fourierStore P fp wnoise phase s xId).1).getD xId [] =
      s.getD xId [] := by
  unfold fourierStore
  rw [fourierStoreLoop_preserves P fp wnoise phase s.length _ none 0 _ xId
    (by omega)]
  rw [List.getD_eq_getElem?_getD, List.getD_eq_getElem?_getD,
    List.getElem?_append_left hx]

theorem uniformStore_preserves (rowPerm : List ℕ) (colPerms : ℕ → List ℕ)
    (fixed_order : Bool) (s : StoreK K) (xId : ℕ) (hx : xId < s.length) :
    ((uniformStore rowPerm colPerms fixed_order s xId).1).getD xId [] =
      s.getD xId [] := by
  unfold uniformStore
  cases uniform_shuffle rowPerm colPerms fixed_order (s.getD xId []) with
  | error e => rfl
  | ok z =>
    simp only
    rw [List.getD_eq_getElem?_getD, List.getD_eq_getElem?_getD,
      List.getElem?_append_left hx]

theorem argsort_of_strictSorted [LinearOrder K] [Inhabited K] {xs : List K}
    (hs : List.Sorted (fun a b => a < b) xs) :
    argsort xs = List.range xs.length := by
  unfold argsort
  apply List.Sorted.insertionSort_eq
  refine List.Pairwise.imp_of_mem ?_ (List.pairwise_lt_range xs.length)
  intro a b hma hmb hab
  exact Or.inl ((sorted_lt_getD_iff hs (List.mem_range.1 hma)
    (List.mem_range.1 hmb)).1.2 hab)

theorem sortL_of_sorted [LinearOrder K] {xs : List K}
    (hs : List.Sorted (fun a b => a ≤ b) xs) : sortL xs = xs :=
  List.Sorted.insertionSort_eq hs

theorem cexp_negPiHalf_nat (j : ℕ) :
    Complex.exp ((j : ℂ) * (-((Real.pi : ℂ) / 2) * Complex.I)) =
      (-Complex.I) ^ j := by
  rw [Complex.exp_nat_mul]
  congr 1
  have h : (-((Real.pi : ℂ) / 2) * Complex.I) =
      ((-(Real.pi / 2) : ℝ) : ℂ) * Complex.I := by push_cast; ring
  rw [h, Complex.exp_mul_I]
  rw [← Complex.ofReal_cos, ← Complex.ofReal_sin]
  rw [Real.cos_neg, Real.sin_neg, Real.cos_pi_div_two, Real.sin_pi_div_two]
  push_cast
  ring

theorem cexp_dft4_term (k t : ℕ) :
    Complex.exp (-(2 * (Real.pi : ℂ) * (k : ℂ) * (t : ℂ) / ((4 : ℕ) : ℂ)) *
      Complex.I) = (-Complex.I) ^ (k * t) := by
  have h : (-(2 * (Real.pi : ℂ) * (k : ℂ) * (t : ℂ) / ((4 : ℕ) : ℂ)) *
      Complex.I) = ((k * t : ℕ) : ℂ) * (-((Real.pi : ℂ) / 2) * Complex.I) := by
    push_cast
    ring
  rw [h, cexp_negPiHalf_nat]

theorem fft4_bin2 {F : List ℝ → ℕ → List ℂ} (hF : IsNpFFT F) :
    (F [0, 1, 2, 4] 4).getD 2 0 = ((-3 : ℝ) : ℂ) := by
  rw [hF]
  have hlen : (2 : ℕ) < ((List.range 4).map fun (k : ℕ) =>
      ∑ t ∈ Finset.range 4,
        (((padTrunc ([0, 1, 2, 4] : List ℝ) 4).getD t 0 : ℝ) : ℂ) *
          Complex.exp (-(2 * (Real.pi : ℂ) * (k : ℂ) * (t : ℂ) /
            ((4 : ℕ) : ℂ)) * Complex.I)).length := by simp
  rw [List.getD_eq_getElem?_getD, List.getElem?_eq_getElem hlen]
  rw [List.getElem_map, List.getElem_range]
  simp only [Option.getD_some]
  rw [Finset.sum_range_succ, Finset.sum_range_succ, Finset.sum_range_succ,
    Finset.sum_range_succ, Finset.sum_range_zero]
  simp only [cexp_dft4_term]
  have hp0 : (-Complex.I) ^ (2 * 0) = 1 := by norm_num
  have hp2 : (-Complex.I) ^ (2 * 1) = -1 := by
    norm_num [pow_succ, Complex.I_mul_I]
  have hp4 : (-Complex.I) ^ (2 * 2) = 1 := by
    norm_num [pow_succ, Complex.I_mul_I]
  have hp6 : (-Complex.I) ^ (2 * 3) = -1 := by
    norm_num [pow_succ, Complex.I_mul_I]
  rw [hp0, hp2, hp4, hp6]
  norm_num [padTrunc]

theorem fft4_bin3 {F : List ℝ → ℕ → List ℂ} (hF : IsNpFFT F) :
    (F [0, 1, 2, 4] 4).getD 3 0 = (-2 : ℂ) - 3 * Complex.I := by
  rw [hF]
  have hlen : (3 : ℕ) < ((List.range 4).map fun (k : ℕ) =>
      ∑ t ∈ Finset.range 4,
        (((padTrunc ([0, 1, 2, 4] : List ℝ) 4).getD t 0 : ℝ) : ℂ) *
          Complex.exp (-(2 * (Real.pi : ℂ) * (k : ℂ) * (t : ℂ) /
            ((4 : ℕ) : ℂ)) * Complex.I)).length := by simp
  rw [List.getD_eq_getElem?_getD, List.getElem?_eq_getElem hlen]
  rw [List.getElem_map, List.getElem_range]
  simp only [Option.getD_some]
  rw [Finset.sum_range_succ, Finset.sum_range_succ, Finset.sum_range_succ,
    Finset.sum_range_succ, Finset.sum_range_zero]
  simp only [cexp_dft4_term]
  have hp0 : (-Complex.I) ^ (3 * 0) = 1 := by norm_num
  have hp3 : (-Complex.I) ^ (3 * 1) = Complex.I := by
    norm_num [pow_succ, Complex.I_mul_I]
  have hp6 : (-Complex.I) ^ (3 * 2) = -1 := by
    norm_num [pow_succ, Complex.I_mul_I]
  have hp9 : (-Complex.I) ^ (3 * 3) = -Complex.I := by
    norm_num [pow_succ, Complex.I_mul_I]
  rw [hp0, hp3, hp6, hp9]
  norm_num [padTrunc]
  ring

theorem uniform_fixed_facts [LinearOrder K] [Inhabited K] (rowPerm : List ℕ)
    (cp : ℕ → List ℕ) {T : ℕ} (xM : List (List K)) (hwf : Wellformed T xM)
    (hp : List.Perm rowPerm (List.range T)) :
    ∃ out, uniform_shuffle rowPerm cp true xM = Except.ok out ∧
      out.length = xM.length ∧
      ∀ (j : ℕ) (oc c : List K), out[j]? = some oc → xM[j]? = some c →
        oc = rowPerm.map (fun i => c.getD i default) ∧
        List.Perm oc c ∧ oc.length = T := by
  rw [uniform_fixed_eq rowPerm cp xM hwf hp]
  refine ⟨_, rfl, by simp, ?_⟩
  intro j oc c hj hc
  rw [List.getElem?_map, hc, Option.map_some'] at hj
  have hoc : oc = rowPerm.map fun i => c.getD i default :=
    (Option.some.inj hj).symm
  have hcT : c.length = T := hwf c (List.getElem?_mem hc)
  have hperm : List.Perm rowPerm (List.range c.length) := by rw [hcT]; exact hp
  refine ⟨hoc, ?_, ?_⟩
  · rw [hoc]
    exact perm_map_getD_of_perm_range c rowPerm hperm
  · rw [hoc, List.length_map]
    simpa using hp.length_eq

theorem uniform_free_facts [LinearOrder K] [Inhabited K] (rowPerm : List ℕ)
    (cp : ℕ → List ℕ) {T : ℕ} (xM : List (List K)) (hwf : Wellformed T xM)
    (hps : ∀ j < xM.length, List.Perm (cp j) (List.range T)) :
    ∃ out, uniform_shuffle rowPerm cp false xM = Except.ok out ∧
      out.length = xM.length ∧
      ∀ (j : ℕ) (oc c : List K), out[j]? = some oc → xM[j]? = some c →
        oc = (cp j).map (fun i => c.getD i default) ∧
        List.Perm oc c ∧ oc.length = T := by
  rw [uniform_free_eq rowPerm cp xM hwf hps]
  refine ⟨_, rfl, by simp, ?_⟩
  intro j oc c hj hc
  have hjlt : j < xM.length := (List.getElem?_eq_some.1 hc).1
  have henum : (xM.enum)[j]? = some (j, c) := by
    rw [List.enum, List.getElem?_enumFrom, hc, Option.map_some']
    simp
  rw [List.getElem?_map, henum, Option.map_some'] at hj
  have hoc : oc = (cp j).map fun i => c.getD i default :=
    (Option.some.inj hj).symm
  have hcT : c.length = T := hwf c (List.getElem?_mem hc)
  have hperm : List.Perm (cp j) (List.range c.length) := by
    rw [hcT]; exact hps j hjlt
  refine ⟨hoc, ?_, ?_⟩
  · rw [hoc]
    exact perm_map_getD_of_perm_range c (cp j) hperm
  · rw [hoc, List.length_map]
    simpa using (hps j hjlt).length_eq

/-- The genuine numpy primitive bundle over the real and complex numbers
satisfies RealPrims definitionally; shared by the witnesses below. -/
theorem realPrims_concrete : RealPrims
    ⟨fun xs m => (List.range m).map fun (k : ℕ) =>
        ∑ t ∈ Finset.range m,
          (((padTrunc xs m).getD t 0 : ℝ) : ℂ) *
            Complex.exp (-(2 * (Real.pi : ℂ) * (k : ℂ) * (t : ℂ) / (m : ℂ)) *
              Complex.I),
      fun z => Complex.abs z,
      Complex.arg,
      fun mg ph => (mg : ℂ) * Complex.exp ((ph : ℂ) * Complex.I),
      fun xs m => (List.range m).map fun (t : ℕ) =>
        ((m : ℂ)⁻¹ * ∑ k ∈ Finset.range m,
          (padTrunc xs m).getD k 0 *
            Complex.exp (2 * (Real.pi : ℂ) * (k : ℂ) * (t : ℂ) / (m : ℂ) *
              Complex.I)).re⟩ :=
  ⟨fun _ _ => rfl, rfl, rfl, fun _ _ => rfl, fun _ _ => rfl⟩

/-- C3, counterexample: a malformed input — the empty two-dimensional matrix
with zero channels — does not make uniform_shuffle fail at all, let alone
with an InvalidInputShape kind: the call succeeds, returning the empty
surrogate.  This refutes the claim that every malformed input fails with an
error of kind InvalidInputShape. -/
theorem claim3_counterexample :
    uniform_shuffle (K := ℝ) [] (fun _ => []) true [] = Except.ok [] ∧
    ∀ e : NpError,
      uniform_shuffle (K := ℝ) [] (fun _ => []) true [] ≠ Except.error e := by
  refine ⟨rfl, fun e h => ?_⟩
  have h2 : (Except.ok [] : Except NpError (List (List ℝ))) =
      Except.error e := h
  exact Except.noConfusion h2

/-- C3, amended: uniform_shuffle performs no input validation and has no
InvalidInputShape error kind.  An empty two-dimensional input succeeds
trivially: with zero channels (shape (T, 0)) both modes return the empty
matrix, and with zero samples (shape (0, N)) the fixed-order mode with the
empty permutation returns the input unchanged.  (A non-two-dimensional numpy
input fails at the shape unpacking T, N = xV.shape with a generic ValueError;
such inputs are outside the two-dimensional data model embedded here.) -/
theorem claim3_no_validation :
    (∀ (rowPerm : List ℕ) (cp : ℕ → List ℕ) (b : Bool),
      uniform_shuffle (K := ℝ) rowPerm cp b [] = Except.ok []) ∧
    (∀ (N : ℕ) (cp : ℕ → List ℕ),
      uniform_shuffle (K := ℝ) [] cp true (List.replicate N []) =
        Except.ok (List.replicate N [])) := by
  constructor
  · intro rowPerm cp b
    cases b <;> rfl
  · intro N cp
    rw [uniform_shuffle, if_pos rfl]
    have h := mapM_ok_of_ok (f := fun c : List ℝ => fancyIndex c [])
      (g := fun _ => []) (List.replicate N []) (fun a _ => rfl)
    rw [h, List.map_replicate]

/-- C9: for every input matrix with T = 2 or T = 3 samples per channel and at
least one channel, fourier_constrained_shuffle reaches the out-of-bounds
access fiV[n2+1]: with n2 = 1 the forward transform has length 2*n2 = 2, and
index n2+1 = 2 is past the end of the length-2 phase array, so the embedded
computation returns the index error, not any designed error kind. -/
theorem claim9_oob_small_T (P : FourierPrims ℝ ℂ) (w φ : ℕ → ℕ → ℝ)
    (fp : Bool) (T : ℕ) (xM : List (List ℝ)) (hP : RealPrims P)
    (hwf : Wellformed T xM) (hne : xM ≠ []) (hT : T = 2 ∨ T = 3) :
    fourier_constrained_shuffle P w φ fp xM =
      Except.error NpError.indexOutOfBounds := by
  have h := fourier_err_small P (realPrims_primsLen hP) fp w φ xM hwf hne
    (by omega)
  rwa [if_neg (by omega)] at h

/-- C9 witness: the two-sample single-channel matrix [[1], [2]] (T = 2,
N = 1) hits the out-of-bounds read. -/
theorem claim9_witness :
    fourier_constrained_shuffle
      ⟨fun xs m => (List.range m).map fun (k : ℕ) =>
          ∑ t ∈ Finset.range m,
            (((padTrunc xs m).getD t 0 : ℝ) : ℂ) *
              Complex.exp (-(2 * (Real.pi : ℂ) * (k : ℂ) * (t : ℂ) / (m : ℂ)) *
                Complex.I),
        fun z => Complex.abs z,
        Complex.arg,
        fun mg ph => (mg : ℂ) * Complex.exp ((ph : ℂ) * Complex.I),
        fun xs m => (List.range m).map fun (t : ℕ) =>
          ((m : ℂ)⁻¹ * ∑ k ∈ Finset.range m,
            (padTrunc xs m).getD k 0 *
              Complex.exp (2 * (Real.pi : ℂ) * (k : ℂ) * (t : ℂ) / (m : ℂ) *
                Complex.I)).re⟩
      (fun _ _ => 0) (fun _ _ => 0) true [[(1 : ℝ), 2]] =
      Except.error NpError.indexOutOfBounds :=
  claim9_oob_small_T _ (fun _ _ => 0) (fun _ _ => 0) true 2 [[(1 : ℝ), 2]]
    realPrims_concrete
    (by intro c hc; rw [List.mem_singleton] at hc; rw [hc]; rfl)
    (by simp) (Or.inl rfl)

/-- C2, counterexample: the single-sample single-channel matrix [[1]] (T = 1,
so T < 4) does make fourier_constrained_shuffle fail, but with the generic
zero-length-transform error of np.fft.fft(yV, 0), not with an error of kind
InsufficientSamples.  This refutes the claimed error kind. -/
theorem claim2_counterexample :
    fourier_constrained_shuffle
      ⟨fun xs m => (List.range m).map fun (k : ℕ) =>
          ∑ t ∈ Finset.range m,
            (((padTrunc xs m).getD t 0 : ℝ) : ℂ) *
              Complex.exp (-(2 * (Real.pi : ℂ) * (k : ℂ) * (t : ℂ) / (m : ℂ)) *
                Complex.I),
        fun z => Complex.abs z,
        Complex.arg,
        fun mg ph => (mg : ℂ) * Complex.exp ((ph : ℂ) * Complex.I),
        fun xs m => (List.range m).map fun (t : ℕ) =>
          ((m : ℂ)⁻¹ * ∑ k ∈ Finset.range m,
            (padTrunc xs m).getD k 0 *
              Complex.exp (2 * (Real.pi : ℂ) * (k : ℂ) * (t : ℂ) / (m : ℂ) *
                Complex.I)).re⟩
      (fun _ _ => 0) (fun _ _ => 0) true [[(1 : ℝ)]] =
      Except.error NpError.invalidFFTLength ∧
    NpError.invalidFFTLength ≠ NpError.insufficientSamples :=
  ⟨rfl, by decide⟩

/-- C2, amended: for every input with T < 4 and at least one channel,
fourier_constrained_shuffle does fail before producing any result, but with a
generic numpy error — the zero-length transform error for T at most 1, or the
out-of-bounds phase index for T = 2 or 3 — never with an InsufficientSamples
kind (and a zero-channel input succeeds trivially instead of failing). -/
theorem claim2_lt4_fails_generic (P : FourierPrims ℝ ℂ) (w φ : ℕ → ℕ → ℝ)
    (fp : Bool) (T : ℕ) (xM : List (List ℝ)) (hP : RealPrims P)
    (hwf : Wellformed T xM) (hne : xM ≠ []) (hT : T < 4) :
    ∃ e, fourier_constrained_shuffle P w φ fp xM = Except.error e ∧
      e ≠ NpError.insufficientSamples ∧ e ≠ NpError.invalidInputShape := by
  refine ⟨_, fourier_err_small P (realPrims_primsLen hP) fp w φ xM hwf hne hT,
    ?_, ?_⟩ <;> split <;> decide

/-- C2 witness: the amended statement applied to the matrix [[1]]. -/
theorem claim2_witness :
    ∃ e, fourier_constrained_shuffle
      ⟨fun xs m => (List.range m).map fun (k : ℕ) =>
          ∑ t ∈ Finset.range m,
            (((padTrunc xs m).getD t 0 : ℝ) : ℂ) *
              Complex.exp (-(2 * (Real.pi : ℂ) * (k : ℂ) * (t : ℂ) / (m : ℂ)) *
                Complex.I),
        fun z => Complex.abs z,
        Complex.arg,
        fun mg ph => (mg : ℂ) * Complex.exp ((ph : ℂ) * Complex.I),
        fun xs m => (List.range m).map fun (t : ℕ) =>
          ((m : ℂ)⁻¹ * ∑ k ∈ Finset.range m,
            (padTrunc xs m).getD k 0 *
              Complex.exp (2 * (Real.pi : ℂ) * (k : ℂ) * (t : ℂ) / (m : ℂ) *
                Complex.I)).re⟩
      (fun _ _ => 0) (fun _ _ => 0) true [[(1 : ℝ)]] = Except.error e ∧
      e ≠ NpError.insufficientSamples ∧ e ≠ NpError.invalidInputShape :=
  claim2_lt4_fails_generic _ (fun _ _ => 0) (fun _ _ => 0) true 1 [[(1 : ℝ)]]
    realPrims_concrete
    (by intro c hc; rw [List.mem_singleton] at hc; rw [hc]; rfl)
    (by simp) (by norm_num)

/-- C10: neither function mutates its input array.  In the store semantics —
where every numpy operation the source uses returns a fresh array and the
only in-place write is the column assignment zM[:, ii] into the freshly
allocated np.zeros_like output — the array at the input's store position is
unchanged after either call, in every mode and also on error paths. -/
theorem claim10_no_input_mutation (P : FourierPrims ℝ ℂ) (w φ : ℕ → ℕ → ℝ)
    (fp fo : Bool) (rowPerm : List ℕ) (cp : ℕ → List ℕ) (s : StoreK ℝ)
    (xId : ℕ) (hx : xId < s.length) :
    ((fourierStore P fp w φ s xId).1).getD xId [] = s.getD xId [] ∧
    ((uniformStore rowPerm cp fo s xId).1).getD xId [] = s.getD xId [] :=
  ⟨fourierStore_preserves P fp w φ s xId hx,
    uniformStore_preserves rowPerm cp fo s xId hx⟩

/-- C10 witness: a store holding the single 2-by-1 matrix [[1, 2]]. -/
theorem claim10_witness :
    ((fourierStore
      (⟨fun _ m => List.replicate m 0, fun _ => 0, fun _ => 0, fun _ _ => 0,
        fun _ m => List.replicate m 0⟩ : FourierPrims ℝ ℂ)
      true (fun _ _ => 0) (fun _ _ => 0) [[[(1 : ℝ), 2]]] 0).1).getD 0 [] =
      ([[[(1 : ℝ), 2]]] : StoreK ℝ).getD 0 [] ∧
    ((uniformStore [0, 1] (fun _ => [0, 1]) true
      ([[[(1 : ℝ), 2]]] : StoreK ℝ) 0).1).getD 0 [] =
      ([[[(1 : ℝ), 2]]] : StoreK ℝ).getD 0 [] :=
  claim10_no_input_mutation _ (fun _ _ => 0) (fun _ _ => 0) true true [0, 1]
    (fun _ => [0, 1]) [[[(1 : ℝ), 2]]] 0 (by norm_num)

/-- C6: in fixed-order mode uniform_shuffle applies the single drawn
permutation rowPerm to every channel simultaneously — output[i, j] =
input[rowPerm i, j] for all i < T and all channels j — and consequently for
T = 1 the output equals the input (the only permutation of one element is the
identity). -/
theorem claim6_fixed_permutation :
    (∀ (rowPerm : List ℕ) (cp : ℕ → List ℕ) (T : ℕ) (xM : List (List ℝ)),
      Wellformed T xM → List.Perm rowPerm (List.range T) →
      ∃ out, uniform_shuffle rowPerm cp true xM = Except.ok out ∧
        ∀ j i : ℕ, j < xM.length → i < T →
          (out.getD j []).getD i 0 =
            (xM.getD j []).getD (rowPerm.getD i 0) 0) ∧
    (∀ (rowPerm : List ℕ) (cp : ℕ → List ℕ) (xM : List (List ℝ)),
      Wellformed 1 xM → List.Perm rowPerm (List.range 1) →
      uniform_shuffle rowPerm cp true xM = Except.ok xM) := by
  constructor
  · intro rowPerm cp T xM hwf hp
    obtain ⟨out, hrun, hlen, hfacts⟩ := uniform_fixed_facts rowPerm cp xM hwf hp
    refine ⟨out, hrun, ?_⟩
    intro j i hj hi
    have hjo : j < out.length := by rw [hlen]; exact hj
    have hjeq : out[j]? = some (out[j]) := List.getElem?_eq_getElem hjo
    have hceq : xM[j]? = some (xM[j]) := List.getElem?_eq_getElem hj
    obtain ⟨hoc, _, _⟩ := hfacts j (out[j]) (xM[j]) hjeq hceq
    rw [getD_of_lt _ _ hjo, getD_of_lt _ _ hj, hoc]
    have hip : i < rowPerm.length := by
      rw [hp.length_eq, List.length_range]; exact hi
    have him : i < (rowPerm.map fun k => (xM[j]).getD k default).length := by
      rw [List.length_map]; exact hip
    rw [getD_of_lt _ _ him, List.getElem_map, getD_of_lt _ _ hip]
    rfl
  · intro rowPerm cp xM hwf hp
    have hone : rowPerm = [0] := by
      have h1 : List.range 1 = [0] := rfl
      rw [h1] at hp
      exact List.perm_singleton.1 hp
    subst hone
    rw [uniform_fixed_eq [0] cp xM hwf (by rw [show List.range 1 = [0] from rfl])]
    congr 1
    have hch : ∀ c ∈ xM, (([0] : List ℕ).map fun i => c.getD i default) = c := by
      intro c hc
      obtain ⟨a, rfl⟩ := List.length_eq_one.1 (hwf c hc)
      rfl
    rw [List.map_congr_left hch, List.map_id']

/-- C6 witness: the specification example — the column vector
[1, 2, 3, 4, 5, 6] (T = 6, N = 1) with the fixed permutation
[3, 0, 4, 1, 5, 2] yields [4, 1, 5, 2, 6, 3] — together with the general
indexing property at that input and the T = 1 identity case. -/
theorem claim6_witness :
    (∃ out, uniform_shuffle [3, 0, 4, 1, 5, 2] (fun _ => []) true
        [[(1 : ℝ), 2, 3, 4, 5, 6]] = Except.ok out ∧
      ∀ j i : ℕ, j < ([[(1 : ℝ), 2, 3, 4, 5, 6]] : List (List ℝ)).length →
        i < 6 →
        (out.getD j []).getD i 0 =
          (([[(1 : ℝ), 2, 3, 4, 5, 6]] : List (List ℝ)).getD j []).getD
            (([3, 0, 4, 1, 5, 2] : List ℕ).getD i 0) 0) ∧
    uniform_shuffle [3, 0, 4, 1, 5, 2] (fun _ => []) true
      [[(1 : ℝ), 2, 3, 4, 5, 6]] = Except.ok [[4, 1, 5, 2, 6, 3]] ∧
    uniform_shuffle [0] (fun _ => []) true [[(7 : ℝ)]] =
      Except.ok [[(7 : ℝ)]] := by
  refine ⟨?_, rfl, ?_⟩
  · exact claim6_fixed_permutation.1 [3, 0, 4, 1, 5, 2] (fun _ => []) 6
      [[(1 : ℝ), 2, 3, 4, 5, 6]]
      (by intro c hc; rw [List.mem_singleton] at hc; rw [hc]; rfl)
      (by decide)
  · exact claim6_fixed_permutation.2 [0] (fun _ => []) [[(7 : ℝ)]]
      (by intro c hc; rw [List.mem_singleton] at hc; rw [hc]; rfl)
      (by decide)

theorem wellformed_of_facts {out xM : List (List K)} {T : ℕ}
    (hlen : out.length = xM.length)
    (hlens : ∀ (j : ℕ) (oc c : List K), out[j]? = some oc →
      xM[j]? = some c → oc.length = T) :
    Wellformed T out := by
  intro oc hmem
  obtain ⟨j, hj⟩ := List.mem_iff_getElem?.1 hmem
  have hjo : j < out.length := (List.getElem?_eq_some.1 hj).1
  have hjx : j < xM.length := hlen ▸ hjo
  exact hlens j oc (xM[j]) hj (List.getElem?_eq_getElem hjx)

/-- C4: for every valid input and every channel, the output channel of
uniform_shuffle (either mode) and of fourier_constrained_shuffle (either
mode, any noise and phase draws, T at least 4) is a list-permutation of the
input channel — the multiset of values is preserved exactly, never
resampled. -/
theorem claim4_multiset_preservation :
    (∀ (rowPerm : List ℕ) (cp : ℕ → List ℕ) (T : ℕ) (xM : List (List ℝ)),
      Wellformed T xM → List.Perm rowPerm (List.range T) →
      ∃ out, uniform_shuffle rowPerm cp true xM = Except.ok out ∧
        ∀ (j : ℕ) (oc c : List ℝ), out[j]? = some oc → xM[j]? = some c →
          List.Perm oc c) ∧
    (∀ (rowPerm : List ℕ) (cp : ℕ → List ℕ) (T : ℕ) (xM : List (List ℝ)),
      Wellformed T xM → (∀ j < xM.length, List.Perm (cp j) (List.range T)) →
      ∃ out, uniform_shuffle rowPerm cp false xM = Except.ok out ∧
        ∀ (j : ℕ) (oc c : List ℝ), out[j]? = some oc → xM[j]? = some c →
          List.Perm oc c) ∧
    (∀ (P : FourierPrims ℝ ℂ) (w φ : ℕ → ℕ → ℝ) (fp : Bool) (T : ℕ)
      (xM : List (List ℝ)), RealPrims P → Wellformed T xM → 4 ≤ T →
      ∃ out, fourier_constrained_shuffle P w φ fp xM = Except.ok out ∧
        ∀ (j : ℕ) (oc c : List ℝ), out[j]? = some oc → xM[j]? = some c →
          List.Perm oc c) := by
  refine ⟨?_, ?_, ?_⟩
  · intro rowPerm cp T xM hwf hp
    obtain ⟨out, hrun, _, hfacts⟩ := uniform_fixed_facts rowPerm cp xM hwf hp
    exact ⟨out, hrun, fun j oc c hj hc => (hfacts j oc c hj hc).2.1⟩
  · intro rowPerm cp T xM hwf hps
    obtain ⟨out, hrun, _, hfacts⟩ := uniform_free_facts rowPerm cp xM hwf hps
    exact ⟨out, hrun, fun j oc c hj hc => (hfacts j oc c hj hc).2.1⟩
  · intro P w φ fp T xM hP hwf hT
    obtain ⟨out, hrun, _, hfacts⟩ :=
      fourier_ok P (realPrims_primsLen hP) fp w φ hT xM hwf
    exact ⟨out, hrun, fun j oc c hj hc => (hfacts j oc c hj hc).2⟩

/-- C4 witness: fixed-order shuffle of [[5, 6]] by [1, 0], free-order
shuffle of the same, and the AAFT surrogate of [[1, 2, 3, 4]] with the
genuine transform. -/
theorem claim4_witness :
    (∃ out, uniform_shuffle [1, 0] (fun _ => [1, 0]) true [[(5 : ℝ), 6]] =
        Except.ok out ∧
      ∀ (j : ℕ) (oc c : List ℝ), out[j]? = some oc →
        ([[(5 : ℝ), 6]] : List (List ℝ))[j]? = some c → List.Perm oc c) ∧
    (∃ out, uniform_shuffle [1, 0] (fun _ => [1, 0]) false [[(5 : ℝ), 6]] =
        Except.ok out ∧
      ∀ (j : ℕ) (oc c : List ℝ), out[j]? = some oc →
        ([[(5 : ℝ), 6]] : List (List ℝ))[j]? = some c → List.Perm oc c) ∧
    (∃ out, fourier_constrained_shuffle
      ⟨fun xs m => (List.range m).map fun (k : ℕ) =>
          ∑ t ∈ Finset.range m,
            (((padTrunc xs m).getD t 0 : ℝ) : ℂ) *
              Complex.exp (-(2 * (Real.pi : ℂ) * (k : ℂ) * (t : ℂ) / (m : ℂ)) *
                Complex.I),
        fun z => Complex.abs z,
        Complex.arg,
        fun mg ph => (mg : ℂ) * Complex.exp ((ph : ℂ) * Complex.I),
        fun xs m => (List.range m).map fun (t : ℕ) =>
          ((m : ℂ)⁻¹ * ∑ k ∈ Finset.range m,
            (padTrunc xs m).getD k 0 *
              Complex.exp (2 * (Real.pi : ℂ) * (k : ℂ) * (t : ℂ) / (m : ℂ) *
                Complex.I)).re⟩
      (fun _ _ => 0) (fun _ _ => 0) true [[(1 : ℝ), 2, 3, 4]] =
        Except.ok out ∧
      ∀ (j : ℕ) (oc c : List ℝ), out[j]? = some oc →
        ([[(1 : ℝ), 2, 3, 4]] : List (List ℝ))[j]? = some c →
        List.Perm oc c) := by
  refine ⟨?_, ?_, ?_⟩
  · exact claim4_multiset_preservation.1 [1, 0] (fun _ => [1, 0]) 2
      [[(5 : ℝ), 6]]
      (by intro c hc; rw [List.mem_singleton] at hc; rw [hc]; rfl)
      (by decide)
  · exact claim4_multiset_preservation.2.1 [1, 0] (fun _ => [1, 0]) 2
      [[(5 : ℝ), 6]]
      (by intro c hc; rw [List.mem_singleton] at hc; rw [hc]; rfl)
      (by intro j hj; exact (by decide : List.Perm [1, 0] (List.range 2)))
  · exact claim4_multiset_preservation.2.2 _ (fun _ _ => 0) (fun _ _ => 0)
      true 4 [[(1 : ℝ), 2, 3, 4]] realPrims_concrete
      (by intro c hc; rw [List.mem_singleton] at hc; rw [hc]; rfl)
      (by norm_num)

/-- C5: for every valid T-by-N input, the output of uniform_shuffle (either
mode) and of fourier_constrained_shuffle (either mode, T at least 4) has
exactly N channels of exactly T samples each — output shape equals input
shape. -/
theorem claim5_shape_preservation :
    (∀ (rowPerm : List ℕ) (cp : ℕ → List ℕ) (T : ℕ) (xM : List (List ℝ)),
      Wellformed T xM → List.Perm rowPerm (List.range T) →
      ∃ out, uniform_shuffle rowPerm cp true xM = Except.ok out ∧
        out.length = xM.length ∧ Wellformed T out) ∧
    (∀ (rowPerm : List ℕ) (cp : ℕ → List ℕ) (T : ℕ) (xM : List (List ℝ)),
      Wellformed T xM → (∀ j < xM.length, List.Perm (cp j) (List.range T)) →
      ∃ out, uniform_shuffle rowPerm cp false xM = Except.ok out ∧
        out.length = xM.length ∧ Wellformed T out) ∧
    (∀ (P : FourierPrims ℝ ℂ) (w φ : ℕ → ℕ → ℝ) (fp : Bool) (T : ℕ)
      (xM : List (List ℝ)), RealPrims P → Wellformed T xM → 4 ≤ T →
      ∃ out, fourier_constrained_shuffle P w φ fp xM = Except.ok out ∧
        out.length = xM.length ∧ Wellformed T out) := by
  refine ⟨?_, ?_, ?_⟩
  · intro rowPerm cp T xM hwf hp
    obtain ⟨out, hrun, hlen, hfacts⟩ := uniform_fixed_facts rowPerm cp xM hwf hp
    exact ⟨out, hrun, hlen, wellformed_of_facts hlen
      fun j oc c hj hc => (hfacts j oc c hj hc).2.2⟩
  · intro rowPerm cp T xM hwf hps
    obtain ⟨out, hrun, hlen, hfacts⟩ := uniform_free_facts rowPerm cp xM hwf hps
    exact ⟨out, hrun, hlen, wellformed_of_facts hlen
      fun j oc c hj hc => (hfacts j oc c hj hc).2.2⟩
  · intro P w φ fp T xM hP hwf hT
    obtain ⟨out, hrun, hlen, hfacts⟩ :=
      fourier_ok P (realPrims_primsLen hP) fp w φ hT xM hwf
    exact ⟨out, hrun, hlen, wellformed_of_facts hlen
      fun j oc c hj hc => (hfacts j oc c hj hc).1⟩

/-- C5 witness: shape preservation at the same three concrete calls as the
C4 witness. -/
theorem claim5_witness :
    (∃ out, uniform_shuffle [1, 0] (fun _ => [1, 0]) true [[(5 : ℝ), 6]] =
        Except.ok out ∧ out.length = 1 ∧ Wellformed 2 out) ∧
    (∃ out, uniform_shuffle [1, 0] (fun _ => [1, 0]) false [[(5 : ℝ), 6]] =
        Except.ok out ∧ out.length = 1 ∧ Wellformed 2 out) ∧
    (∃ out, fourier_constrained_shuffle
      ⟨fun xs m => (List.range m).map fun (k : ℕ) =>
          ∑ t ∈ Finset.range m,
            (((padTrunc xs m).getD t 0 : ℝ) : ℂ) *
              Complex.exp (-(2 * (Real.pi : ℂ) * (k : ℂ) * (t : ℂ) / (m : ℂ)) *
                Complex.I),
        fun z => Complex.abs z,
        Complex.arg,
        fun mg ph => (mg : ℂ) * Complex.exp ((ph : ℂ) * Complex.I),
        fun xs m => (List.range m).map fun (t : ℕ) =>
          ((m : ℂ)⁻¹ * ∑ k ∈ Finset.range m,
            (padTrunc xs m).getD k 0 *
              Complex.exp (2 * (Real.pi : ℂ) * (k : ℂ) * (t : ℂ) / (m : ℂ) *
                Complex.I)).re⟩
      (fun _ _ => 0) (fun _ _ => 0) false [[(1 : ℝ), 2, 3, 4]] =
        Except.ok out ∧ out.length = 1 ∧ Wellformed 4 out) := by
  refine ⟨?_, ?_, ?_⟩
  · exact claim5_shape_preservation.1 [1, 0] (fun _ => [1, 0]) 2
      [[(5 : ℝ), 6]]
      (by intro c hc; rw [List.mem_singleton] at hc; rw [hc]; rfl)
      (by decide)
  · exact claim5_shape_preservation.2.1 [1, 0] (fun _ => [1, 0]) 2
      [[(5 : ℝ), 6]]
      (by intro c hc; rw [List.mem_singleton] at hc; rw [hc]; rfl)
      (by intro j hj; exact (by decide : List.Perm [1, 0] (List.range 2)))
  · exact claim5_shape_preservation.2.2 _ (fun _ _ => 0) (fun _ _ => 0)
      false 4 [[(1 : ℝ), 2, 3, 4]] realPrims_concrete
      (by intro c hc; rw [List.mem_singleton] at hc; rw [hc]; rfl)
      (by norm_num)

/-- C8: in one call of fourier_constrained_shuffle with fixed_phase true,
every channel uses the identical free-phase vector, namely the first n2-1
values of the phase stream of channel 0 — the vector drawn when the first
channel is processed; with fixed_phase false, channel j uses the fresh draw
from its own stream, phase stream j. -/
theorem claim8_shared_phase (P : FourierPrims ℝ ℂ) (w φ : ℕ → ℕ → ℝ)
    (T : ℕ) (xM : List (List ℝ)) (hwf : Wellformed T xM) :
    (∀ recs, aaftLoop P true w φ none 0 xM = Except.ok recs →
      ∀ (j : ℕ) (r : ChanRec ℝ), recs[j]? = some r →
        r.usedPhase = (List.range (T / 2 - 1)).map (φ 0)) ∧
    (∀ recs, aaftLoop P false w φ none 0 xM = Except.ok recs →
      ∀ (j : ℕ) (r : ChanRec ℝ), recs[j]? = some r →
        r.usedPhase = (List.range (T / 2 - 1)).map (φ j)) := by
  constructor
  · intro recs hrun j r hj
    have h := aaftLoop_usedPhase_fixed xM none 0 recs hwf hrun j r hj
    simpa using h
  · intro recs hrun j r hj
    have h := aaftLoop_usedPhase_free xM none 0 recs hwf hrun j r hj
    simpa using h

/-- C8 witness: a successful fixed-phase run on the two-channel matrix with
channels [1, 2, 3, 4] and [5, 6, 7, 8]; every channel record carries the
phase vector drawn from stream 0. -/
theorem claim8_witness :
    ∃ recs, aaftLoop
      (⟨fun xs m => (List.range m).map fun (k : ℕ) =>
          ∑ t ∈ Finset.range m,
            (((padTrunc xs m).getD t 0 : ℝ) : ℂ) *
              Complex.exp (-(2 * (Real.pi : ℂ) * (k : ℂ) * (t : ℂ) / (m : ℂ)) *
                Complex.I),
        fun z => Complex.abs z,
        Complex.arg,
        fun mg ph => (mg : ℂ) * Complex.exp ((ph : ℂ) * Complex.I),
        fun xs m => (List.range m).map fun (t : ℕ) =>
          ((m : ℂ)⁻¹ * ∑ k ∈ Finset.range m,
            (padTrunc xs m).getD k 0 *
              Complex.exp (2 * (Real.pi : ℂ) * (k : ℂ) * (t : ℂ) / (m : ℂ) *
                Complex.I)).re⟩ : FourierPrims ℝ ℂ)
      true (fun _ _ => 0) (fun (i : ℕ) (_ : ℕ) => (i : ℝ)) none 0
      [[(1 : ℝ), 2, 3, 4], [(5 : ℝ), 6, 7, 8]] = Except.ok recs ∧
    ∀ (j : ℕ) (r : ChanRec ℝ), recs[j]? = some r →
      r.usedPhase = (List.range (4 / 2 - 1)).map
        ((fun (i : ℕ) (_ : ℕ) => (i : ℝ)) 0) := by
  have hwf : Wellformed 4 [[(1 : ℝ), 2, 3, 4], [(5 : ℝ), 6, 7, 8]] := by
    intro c hc
    rcases List.mem_cons.1 hc with rfl | hc2
    · rfl
    · rw [List.mem_singleton] at hc2; rw [hc2]; rfl
  obtain ⟨recs, hrun, _, _⟩ := aaftLoop_ok _
    (realPrims_primsLen realPrims_concrete) true (fun _ _ => 0)
    (fun (i : ℕ) (_ : ℕ) => (i : ℝ)) (by norm_num)
    [[(1 : ℝ), 2, 3, 4], [(5 : ℝ), 6, 7, 8]] none 0 hwf
    (by intro v hv; cases hv)
  exact ⟨recs, hrun, fun j r hj =>
    (claim8_shared_phase _ (fun _ _ => 0) (fun (i : ℕ) (_ : ℕ) => (i : ℝ)) 4
      [[(1 : ℝ), 2, 3, 4], [(5 : ℝ), 6, 7, 8]] hwf).1 recs hrun j r hj⟩

/-- C7: for every channel processed by fourier_constrained_shuffle, the
output column places the sorted original values according to the stable rank
of the internal phase-randomized series yftV — zV[i] = sort(xV_)[rank of
yftV at i] — and, for a channel without duplicate values, the rank order
(argsort) of the output column equals the rank order of yftV. -/
theorem claim7_aaft_rank_consistency (P : FourierPrims ℝ ℂ)
    (w φ : ℕ → ℕ → ℝ) (fp : Bool) (T : ℕ) (xM : List (List ℝ))
    (hP : RealPrims P) (hwf : Wellformed T xM) (hT : 4 ≤ T) :
    ∃ recs, aaftLoop P fp w φ none 0 xM = Except.ok recs ∧
      fourier_constrained_shuffle P w φ fp xM =
        Except.ok (recs.map ChanRec.zV) ∧
      ∀ (j : ℕ) (r : ChanRec ℝ) (c : List ℝ), recs[j]? = some r →
        xM[j]? = some c →
        (∀ i : ℕ, i < T →
          r.zV.getD i 0 = (sortL c).getD (stableRank r.yftV i) 0) ∧
        (c.Nodup → argsort r.zV = argsort r.yftV) := by
  obtain ⟨recs, hrun, hlen, hfacts⟩ :=
    aaftLoop_ok P (realPrims_primsLen hP) fp w φ hT xM none 0 hwf
    (by intro v hv; cases hv)
  refine ⟨recs, hrun, ?_, ?_⟩
  · rw [fourier_constrained_shuffle, hrun]
    rfl
  · intro j r c hj hc
    obtain ⟨hyl, hzf, _, _⟩ := hfacts j r c hj hc
    have hcT : c.length = T := hwf c (List.getElem?_mem hc)
    constructor
    · intro i hi
      rw [hzf]
      have hiy : i < r.yftV.length := by rw [hyl]; exact hi
      exact rankMap_getD r.yftV (sortL c) hiy
    · intro hnd
      rw [hzf]
      exact argsort_rankMap_eq r.yftV (sortL c)
        (by rw [sortL_length, hcT, hyl]) (sortL_strictSorted hnd)

/-- C7 witness: the rank-consistency statement at the duplicate-free
single-channel matrix [[1, 2, 3, 4]] with the genuine transform. -/
theorem claim7_witness :
    ∃ recs, aaftLoop
      (⟨fun xs m => (List.range m).map fun (k : ℕ) =>
          ∑ t ∈ Finset.range m,
            (((padTrunc xs m).getD t 0 : ℝ) : ℂ) *
              Complex.exp (-(2 * (Real.pi : ℂ) * (k : ℂ) * (t : ℂ) / (m : ℂ)) *
                Complex.I),
        fun z => Complex.abs z,
        Complex.arg,
        fun mg ph => (mg : ℂ) * Complex.exp ((ph : ℂ) * Complex.I),
        fun xs m => (List.range m).map fun (t : ℕ) =>
          ((m : ℂ)⁻¹ * ∑ k ∈ Finset.range m,
            (padTrunc xs m).getD k 0 *
              Complex.exp (2 * (Real.pi : ℂ) * (k : ℂ) * (t : ℂ) / (m : ℂ) *
                Complex.I)).re⟩ : FourierPrims ℝ ℂ)
      true (fun _ _ => 0) (fun _ _ => 0) none 0 [[(1 : ℝ), 2, 3, 4]] =
        Except.ok recs ∧
      fourier_constrained_shuffle
        (⟨fun xs m => (List.range m).map fun (k : ℕ) =>
            ∑ t ∈ Finset.range m,
              (((padTrunc xs m).getD t 0 : ℝ) : ℂ) *
                Complex.exp (-(2 * (Real.pi : ℂ) * (k : ℂ) * (t : ℂ) /
                  (m : ℂ)) * Complex.I),
          fun z => Complex.abs z,
          Complex.arg,
          fun mg ph => (mg : ℂ) * Complex.exp ((ph : ℂ) * Complex.I),
          fun xs m => (List.range m).map fun (t : ℕ) =>
            ((m : ℂ)⁻¹ * ∑ k ∈ Finset.range m,
              (padTrunc xs m).getD k 0 *
                Complex.exp (2 * (Real.pi : ℂ) * (k : ℂ) * (t : ℂ) / (m : ℂ) *
                  Complex.I)).re⟩ : FourierPrims ℝ ℂ)
        (fun _ _ => 0) (fun _ _ => 0) true [[(1 : ℝ), 2, 3, 4]] =
        Except.ok (recs.map ChanRec.zV) ∧
      ∀ (j : ℕ) (r : ChanRec ℝ) (c : List ℝ), recs[j]? = some r →
        ([[(1 : ℝ), 2, 3, 4]] : List (List ℝ))[j]? = some c →
        (∀ i : ℕ, i < 4 →
          r.zV.getD i 0 = (sortL c).getD (stableRank r.yftV i) 0) ∧
        (c.Nodup → argsort r.zV = argsort r.yftV) :=
  claim7_aaft_rank_consistency _ (fun _ _ => 0) (fun _ _ => 0) true 4
    [[(1 : ℝ), 2, 3, 4]] realPrims_concrete
    (by intro c hc; rw [List.mem_singleton] at hc; rw [hc]; rfl)
    (by norm_num)

/-- C1, violated by the code: at the channel [1, 2, 3, 4] with white-noise
draw [0, 1, 2, 4] (so the rank-matched series yV is [0, 1, 2, 4] and the
forward transform has length 2*n2 = 4 with n2 = 2), the reconstructed phase
spectrum nfiV places at index n2 the angle of the transform at bin n2+1 —
which is the angle of -2-3i, a strictly negative angle — whereas the angle
of the transform at bin n2 itself is the angle of -3, namely pi.  The new
phase spectrum therefore does not preserve the original phase at bin n2:
the code reads fiV[n2+1] where the MATLAB original (1-based fiV(n2+1))
denotes the 0-based Nyquist bin n2. -/
theorem claim1_nyquist_phase_bug (P : FourierPrims ℝ ℂ) (φ : ℕ → ℕ → ℝ)
    (hP : RealPrims P) :
    ∃ recs, aaftLoop P true
        (fun _ t => ([0, 1, 2, 4] : List ℝ).getD t 0) φ none 0
        [[(1 : ℝ), 2, 3, 4]] = Except.ok recs ∧
      ∀ r : ChanRec ℝ, recs[0]? = some r →
        r.nfiV.getD 2 0 = Complex.arg ((P.fft [0, 1, 2, 4] 4).getD 3 0) ∧
        Complex.arg ((P.fft [0, 1, 2, 4] 4).getD 3 0) < 0 ∧
        Complex.arg ((P.fft [0, 1, 2, 4] 4).getD 2 0) = Real.pi := by
  obtain ⟨hfft, hcabs, hcarg, hpolar, hifft⟩ := hP
  have hPL : PrimsLen P :=
    realPrims_primsLen ⟨hfft, hcabs, hcarg, hpolar, hifft⟩
  obtain ⟨r, hr, _, _, _, _, _, _, hnfiV⟩ := aaftChannel_ok (T := 4) P hPL
    true ((List.range (([(1 : ℝ), 2, 3, 4] : List ℝ).length)).map
      ((fun _ t => ([0, 1, 2, 4] : List ℝ).getD t 0) 0))
    none (φ 0) [(1 : ℝ), 2, 3, 4] rfl (by simp) (by norm_num)
    (by intro v hv; cases hv)
  have hwV : (List.range (([(1 : ℝ), 2, 3, 4] : List ℝ).length)).map
      ((fun _ t => ([0, 1, 2, 4] : List ℝ).getD t 0) 0) =
      ([0, 1, 2, 4] : List ℝ) := by
    apply List.ext_getElem
    · simp
    · intro i h1 h2
      simp only [List.getElem_map, List.getElem_range]
      exact getD_of_lt _ _ h2
  have hsx : argsort ([(1 : ℝ), 2, 3, 4]) = List.range 4 := by
    have hs : List.Sorted (fun a b => a < b) ([(1 : ℝ), 2, 3, 4]) := by
      norm_num [List.sorted_cons]
    simpa using argsort_of_strictSorted hs
  have hsx2 : argsort (argsort ([(1 : ℝ), 2, 3, 4])) = List.range 4 := by
    rw [hsx]
    simpa using argsort_of_strictSorted (List.pairwise_lt_range 4)
  have hsw : sortL ([0, 1, 2, 4] : List ℝ) = [0, 1, 2, 4] :=
    sortL_of_sorted (by norm_num [List.sorted_cons])
  have hw2 : (List.range 4).map
      (fun i => (([0, 1, 2, 4] : List ℝ)).getD i default) =
      ([0, 1, 2, 4] : List ℝ) := by
    apply List.ext_getElem
    · simp
    · intro i h1 h2
      simp only [List.getElem_map, List.getElem_range]
      exact getD_of_lt _ _ h2
  rw [hwV, hsx2, hsw, hw2] at hnfiV
  rw [show (4 / 2 : ℕ) = 2 from rfl] at hnfiV
  rw [show (2 * 2 : ℕ) = 4 from rfl] at hnfiV
  rw [show (2 + 1 : ℕ) = 3 from rfl] at hnfiV
  have hfl : (P.fft ([0, 1, 2, 4] : List ℝ) 4).length = 4 := by
    rw [hfft]; simp
  have h3lt2 : (3 : ℕ) < (P.fft ([0, 1, 2, 4] : List ℝ) 4).length := by
    rw [hfl]; omega
  have hmap3 : ((P.fft ([0, 1, 2, 4] : List ℝ) 4).map P.carg).getD 3 default =
      Complex.arg ((P.fft ([0, 1, 2, 4] : List ℝ) 4).getD 3 0) := by
    rw [hcarg]
    have h3ltA : (3 : ℕ) <
        ((P.fft ([0, 1, 2, 4] : List ℝ) 4).map Complex.arg).length := by
      rw [List.length_map, hfl]; omega
    rw [getD_of_lt _ _ h3ltA, List.getElem_map]
    congr 1
    exact (getD_of_lt _ _ h3lt2).symm
  rw [hmap3] at hnfiV
  refine ⟨[r], ?_, ?_⟩
  · simp only [aaftLoop, hr, except_bind_ok]
    rfl
  · intro r0 hr0
    rw [List.getElem?_cons_zero] at hr0
    have hrr : r = r0 := Option.some.inj hr0
    subst hrr
    refine ⟨hnfiV, ?_, ?_⟩
    · rw [fft4_bin3 hfft, Complex.arg_neg_iff]
      simp [Complex.sub_im, Complex.mul_im]
    · rw [fft4_bin2 hfft]
      exact Complex.arg_ofReal_of_neg (by norm_num)

/-- C1 witness: the statement at the genuine transform with a zero phase
stream. -/
theorem claim1_witness :
    ∃ recs, aaftLoop
      (⟨fun xs m => (List.range m).map fun (k : ℕ) =>
          ∑ t ∈ Finset.range m,
            (((padTrunc xs m).getD t 0 : ℝ) : ℂ) *
              Complex.exp (-(2 * (Real.pi : ℂ) * (k : ℂ) * (t : ℂ) / (m : ℂ)) *
                Complex.I),
        fun z => Complex.abs z,
        Complex.arg,
        fun mg ph => (mg : ℂ) * Complex.exp ((ph : ℂ) * Complex.I),
        fun xs m => (List.range m).map fun (t : ℕ) =>
          ((m : ℂ)⁻¹ * ∑ k ∈ Finset.range m,
            (padTrunc xs m).getD k 0 *
              Complex.exp (2 * (Real.pi : ℂ) * (k : ℂ) * (t : ℂ) / (m : ℂ) *
                Complex.I)).re⟩ : FourierPrims ℝ ℂ)
      true (fun _ t => ([0, 1, 2, 4] : List ℝ).getD t 0) (fun _ _ => 0)
      none 0 [[(1 : ℝ), 2, 3, 4]] = Except.ok recs ∧
    ∀ r : ChanRec ℝ, recs[0]? = some r →
      r.nfiV.getD 2 0 = Complex.arg
        (((List.range 4).map fun (k : ℕ) =>
          ∑ t ∈ Finset.range 4,
            (((padTrunc ([0, 1, 2, 4] : List ℝ) 4).getD t 0 : ℝ) : ℂ) *
              Complex.exp (-(2 * (Real.pi : ℂ) * (k : ℂ) * (t : ℂ) /
                ((4 : ℕ) : ℂ)) * Complex.I)).getD 3 0) ∧
      Complex.arg
        (((List.range 4).map fun (k : ℕ) =>
          ∑ t ∈ Finset.range 4,
            (((padTrunc ([0, 1, 2, 4] : List ℝ) 4).getD t 0 : ℝ) : ℂ) *
              Complex.exp (-(2 * (Real.pi : ℂ) * (k : ℂ) * (t : ℂ) /
                ((4 : ℕ) : ℂ)) * Complex.I)).getD 3 0) < 0 ∧
      Complex.arg
        (((List.range 4).map fun (k : ℕ) =>
          ∑ t ∈ Finset.range 4,
            (((padTrunc ([0, 1, 2, 4] : List ℝ) 4).getD t 0 : ℝ) : ℂ) *
              Complex.exp (-(2 * (Real.pi : ℂ) * (k : ℂ) * (t : ℂ) /
                ((4 : ℕ) : ℂ)) * Complex.I)).getD 2 0) = Real.pi :=
  claim1_nyquist_phase_bug _ (fun _ _ => 0) realPrims_concrete

end Surrogate
